import Mathlib

/-!
Verification of the planning-and-execution engine of the file organiser
(`core/file_organizer.py`): file scanning, the four classification
strategies, custom-rule evaluation, duplicate-name resolution, plan
execution with partial-failure tracking, and the operation history.

The Python code is shallowly embedded: Python strings are Lean `String`
(operated on through their `List Char` data), `pathlib.Path` values are the
strings `str(path)` with explicit join/parent/name functions, the
filesystem is a list of file records, and every function is a computable
Lean function mirroring the control flow of its Python counterpart.
-/

/-! ### Python string primitives, modelled over `List Char` -/

/-- Lower-casing of a Python string (`str.lower`), modelled per character.
Python lower-cases the full Unicode range; `Char.toLower` covers ASCII,
which is all the engine's keywords and extensions use. -/
def pyLower (s : String) : String :=
  ⟨s.data.map Char.toLower⟩

/-- Substring test on character lists: `containsSub needle hay` is the
Python expression `needle in hay`.  An empty needle is contained in
everything, as in Python. -/
def containsSub (needle : List Char) : List Char → Bool
  | [] => needle.isEmpty
  | c :: rest => needle.isPrefixOf (c :: rest) || containsSub needle rest

/-- Python's `sub in hay` on strings. -/
def strContains (hay sub : String) : Bool :=
  containsSub sub.data hay.data

/-- One step list of `str.split(sep)`: fuelled scanner that cuts the input
at each non-overlapping occurrence of `sep`, left to right.  A fuel of
`s.length + 1` always suffices because every step shortens the input, so
the fuelled function agrees with Python's `split` (which raises on an
empty separator; the engine only ever splits on non-empty literals). -/
def splitSubGo (sep : List Char) : Nat → List Char → List Char → List (List Char)
  | 0, s, cur => [cur.reverse ++ s]
  | fuel + 1, s, cur =>
    match s with
    | [] => [cur.reverse]
    | c :: rest =>
      if sep.isPrefixOf (c :: rest) then
        cur.reverse :: splitSubGo sep fuel (List.drop (sep.length - 1) rest) []
      else
        splitSubGo sep fuel rest (c :: cur)

/-- Python `s.split(sep)` for a non-empty separator. -/
def pySplit (s sep : String) : List String :=
  (splitSubGo sep.data (s.data.length + 1) s.data []).map (fun l => ⟨l⟩)

/-- Python `s.strip(c)` for a one-character strip set: removes every
leading and every trailing occurrence of `c`. -/
def pyStripChar (c : Char) (s : String) : String :=
  ⟨((s.data.dropWhile (· = c)).reverse.dropWhile (· = c)).reverse⟩

/-- Python `s.strip()` (no argument): strips ASCII whitespace from both
ends; the engine only strips around decimal literals. -/
def pyStrip (s : String) : String :=
  ⟨((s.data.dropWhile Char.isWhitespace).reverse.dropWhile Char.isWhitespace).reverse⟩

/-- `s.split(')')[0]`: everything before the first `')'` (the whole string
when there is none), exactly Python's behaviour for that indexing. -/
def takeUntilParen (s : String) : String :=
  ⟨s.data.takeWhile (· ≠ ')')⟩

/-- Head of Python's whitespace `s.split()` (no argument): `none` models
the `IndexError` of `[0]` on an all-whitespace string, which the engine's
`try` swallows. -/
def pyWsSplitHead? (s : String) : Option String :=
  let t := s.data.dropWhile Char.isWhitespace
  if t.isEmpty then none else some ⟨t.takeWhile (fun c => ¬ Char.isWhitespace c)⟩

/-- Python `s.startswith(c)` for a single character. -/
def startsWithChar (s : String) (c : Char) : Bool :=
  match s.data with
  | [] => false
  | a :: _ => a = c

/-- Digit value accumulator: `decVal l` reads a digit list as a decimal
numeral (the standard left fold `10*acc + digit`). -/
def decVal (l : List Char) : Nat :=
  l.foldl (fun a c => a * 10 + (c.toNat - 48)) 0

/-- Decimal digits of `n`, most significant first, empty for `0`;
fuelled structural recursion (`fuel > n` always suffices). -/
def natDecAux : Nat → Nat → List Char
  | 0, _ => []
  | fuel + 1, n => if n = 0 then [] else natDecAux fuel (n / 10) ++ [Nat.digitChar (n % 10)]

/-- Decimal rendering of a natural number, identical to Python's
`str(int)` for non-negative values (which is how the engine prints its
duplicate counters and day counts). -/
def natToDec (n : Nat) : List Char :=
  if n = 0 then ['0'] else natDecAux (n + 1) n

/-- String form of `natToDec`. -/
def natToDecS (n : Nat) : String :=
  ⟨natToDec n⟩

/-- Python `int(s)`: optional sign followed by at least one ASCII digit.
(Python additionally allows underscores between digits and non-ASCII
digits; the engine's conditions only carry plain decimal literals.)
`none` models the `ValueError` that the engine's `try` swallows. -/
def pyToInt? (s : String) : Option Int :=
  match s.data with
  | [] => none
  | '-' :: rest =>
    if rest.isEmpty then none
    else if rest.all Char.isDigit then some (-(decVal rest : Int)) else none
  | '+' :: rest =>
    if rest.isEmpty then none
    else if rest.all Char.isDigit then some ((decVal rest : Int)) else none
  | l => if l.all Char.isDigit then some ((decVal l : Int)) else none

/-! ### Path model (`pathlib` / `os.path` on POSIX-style strings) -/

/-- `Path(s).name` on the underlying characters: the part after the last
`'/'` (the whole string when there is no slash). -/
def basenameL (l : List Char) : List Char :=
  (l.reverse.takeWhile (· ≠ '/')).reverse

/-- `str(Path(s).name)`. -/
def pathBase (s : String) : String :=
  ⟨basenameL s.data⟩

/-- `Path(s).parent` on the underlying characters: drop the last
component; `"."` when there is no slash, `"/"` for a single leading
slash, as in `pathlib`. -/
def parentL (l : List Char) : List Char :=
  if l.contains '/' then
    let pre := (l.reverse.dropWhile (· ≠ '/')).reverse
    if pre = ['/'] then pre else pre.dropLast
  else ['.']

/-- `str(Path(s).parent)`. -/
def pathParent (s : String) : String :=
  ⟨parentL s.data⟩

/-- `str(Path(p) / q)` for a relative single component `q`: `pathlib`
collapses a `"."` or `""` left operand and does not double a root slash.
(The engine only ever joins with plain folder and file names.) -/
def pathJoin (p q : String) : String :=
  if p = "." ∨ p = "" then q
  else if p = "/" then p ++ q
  else p ++ "/" ++ q

/-- Index of the last `'.'` in a character list, if any. -/
def lastDotIdx? (l : List Char) : Option Nat :=
  match l.reverse.findIdx? (· = '.') with
  | some j => some (l.length - 1 - j)
  | none => none

/-- `pathlib.PurePath.suffix` of a file *name*: the substring from the
last dot, provided that dot is neither the first nor the last character
(`Path('a.txt').suffix = '.txt'`, `Path('.bashrc').suffix = ''`,
`Path('a.').suffix = ''`). -/
def pySuffix (name : String) : String :=
  match lastDotIdx? name.data with
  | some i => if 0 < i ∧ i < name.data.length - 1 then ⟨name.data.drop i⟩ else ""
  | none => ""

/-- `os.path.splitext` of a file *name* (no directory part): split at the
last dot unless every character before it is a dot
(`splitext('a.txt') = ('a', '.txt')`, `splitext('.txt') = ('.txt', '')`,
`splitext('a.') = ('a', '.')`). -/
def splitextS (name : String) : String × String :=
  match lastDotIdx? name.data with
  | some i =>
    if (name.data.take i).all (· = '.') then (name, "")
    else (⟨name.data.take i⟩, ⟨name.data.drop i⟩)
  | none => (name, "")

/-- The file extension as the classifier derives it:
`file.suffix.lower().lstrip('.')`. -/
def fileExtOfName (name : String) : String :=
  ⟨((pyLower (pySuffix name)).data.dropWhile (· = '.'))⟩

/-! ### Data model -/

/-- One entry of the configuration's `categories` mapping: the dict key
(`name`), its `extensions` list and its `folder_name`.  The list order is
the YAML (insertion) order in which Python iterates the dict. -/
structure Category where
  name : String
  extensions : List String
  folderName : String
deriving Repr, DecidableEq

/-- One entry of the configuration's `profiles` mapping. -/
structure Profile where
  name : String
  enabledCategories : List String
  rules : List String
deriving Repr, DecidableEq

/-- One entry of the configuration's `rules` list. -/
structure CustomRule where
  name : String
  condition : String
  target : String
deriving Repr, DecidableEq

/-- The loaded YAML configuration, with each mapping in declaration
order. `size_categories` and `date_categories` map a category name to its
inclusive numeric threshold. -/
structure Config where
  categories : List Category
  sizeCategories : List (String × Nat)
  dateCategories : List (String × Nat)
  profiles : List Profile
  rules : List CustomRule
deriving Repr, DecidableEq

/-- A file on disk, as the engine can observe it: full path, whether it
is a regular file, `stat().st_size`, the whole days elapsed since
`stat().st_mtime` (`(now - mtime).days`, taken non-negative here), and
its readable text content. -/
structure FsFile where
  path : String
  isFile : Bool
  size : Nat
  ageDays : Nat
  content : String
deriving Repr, DecidableEq

/-- The filesystem the engine reads and mutates: the list of entries in
`iterdir` order. -/
abbrev Fs := List FsFile

/-- A scanned file as `_scan_files` hands it to the classifiers: the
`Path` object with its `stat` metadata (name, size, age, content). -/
structure FileEntry where
  name : String
  size : Nat
  ageDays : Nat
  content : String
deriving Repr, DecidableEq

/-- One plan item, the dict
`{file, action, source, target, category, reason}` built by the
classifiers; `entry` models the `file` key (the scanned `Path`), `action`
is always `"move"`. -/
structure Item where
  entry : FileEntry
  action : String
  source : String
  target : String
  category : String
  reason : String
deriving Repr, DecidableEq

/-- One element of `results["moved"]`: the dict
`{file, from, to, category, reason}` (`from`/`to` are Lean keywords,
hence `from_`/`to_`). -/
structure MovedRecord where
  file : String
  from_ : String
  to_ : String
  category : String
  reason : String
deriving Repr, DecidableEq

/-- The result dict `{moved, errors, duplicates}` returned by
`organize_folder` (`duplicates` is never populated by the source). -/
structure OrgResults where
  moved : List MovedRecord
  errors : List String
  duplicates : List String
deriving Repr, DecidableEq

/-- The freshly initialised result dict. -/
def emptyResults : OrgResults :=
  ⟨[], [], []⟩

/-- One record of `self.operation_history`. -/
structure OperationRecord where
  timestamp : String
  folder : String
  mode : String
  profile : String
  movedFiles : List MovedRecord
  errors : List String
deriving Repr, DecidableEq

/-! ### Scanner (`_scan_files`) -/

/-- Whether `folder_path.exists()` holds: some filesystem entry carries
exactly this path. -/
def dirExists (fs : Fs) (base : String) : Bool :=
  fs.any (fun f => f.path == base)

/-- Whether `p` is a direct child path of the directory `base`
(`iterdir` yields exactly those entries). -/
def isDirectChild (base : String) (p : String) : Bool :=
  (base ++ "/").data.isPrefixOf p.data && !((p.data.drop (base.data.length + 1)).contains '/')

/-- `_scan_files`: the regular files directly inside `base`, in `iterdir`
(filesystem) order, excluding names starting with `'.'` or `'~'`. -/
def scanFiles (base : String) (fs : Fs) : List FileEntry :=
  (fs.filter (fun f =>
      f.isFile && isDirectChild base f.path &&
      !(startsWithChar (pathBase f.path) '.') && !(startsWithChar (pathBase f.path) '~'))).map
    (fun f => ⟨pathBase f.path, f.size, f.ageDays, f.content⟩)

/-! ### Classifier: by type (`_organize_by_type`) -/

/-- The category search loop of `_organize_by_type`: walk the
configuration's categories in declaration order; a category is considered
only if its *name* is in the profile's enabled list, and the first
considered category whose extension list contains the file's extension
wins, yielding its `folder_name`. -/
def findCategory : List Category → List String → String → Option String
  | [], _, _ => none
  | c :: rest, enabled, ext =>
    if enabled.contains c.name then
      if c.extensions.contains ext then some c.folderName
      else findCategory rest enabled ext
    else findCategory rest enabled ext

/-- The plan item `_organize_by_type` builds for one scanned file. -/
def typeItem (basePath : String) (cats : List Category) (enabled : List String)
    (e : FileEntry) : Item :=
  let ext := fileExtOfName e.name
  match findCategory cats enabled ext with
  | some folder =>
    ⟨e, "move", pathJoin basePath e.name, pathJoin (pathJoin basePath folder) e.name,
      folder, "File type: " ++ ext⟩
  | none =>
    ⟨e, "move", pathJoin basePath e.name, pathJoin (pathJoin basePath "Others") e.name,
      "Others", "Uncategorized file type"⟩

/-- `_organize_by_type`. -/
def organizeByType (files : List FileEntry) (basePath : String)
    (cats : List Category) (enabled : List String) : List Item :=
  files.map (typeItem basePath cats enabled)

/-! ### Classifier: by size (`_organize_by_size`) -/

/-- The size loop: `target_category = 'Others'`, then the first declared
threshold with `size <= max_size` wins. -/
def findSizeCategory : List (String × Nat) → Nat → String
  | [], _ => "Others"
  | (cat, maxSize) :: rest, sz => if sz ≤ maxSize then cat else findSizeCategory rest sz

/-- `_format_size`: repeatedly divide by `1024.0` through B/KB/MB/GB and
render with one decimal (`f"{size:.1f}"`).  For sizes below 2^53 the
Python floats are exact, so this is the float-free equivalent; the final
digit uses Python's round-half-to-even. -/
def fmtOneDecimal (num den : Nat) : String :=
  let q := num * 10 / den
  let r := num * 10 % den
  let t := if 2 * r < den then q else if 2 * r > den then q + 1
           else if q % 2 = 0 then q else q + 1
  natToDecS (t / 10) ++ "." ++ natToDecS (t % 10)

/-- `_format_size`. -/
def formatSize (n : Nat) : String :=
  if n < 1024 then fmtOneDecimal n 1 ++ " B"
  else if n < 1024 * 1024 then fmtOneDecimal n 1024 ++ " KB"
  else if n < 1024 * 1024 * 1024 then fmtOneDecimal n (1024 * 1024) ++ " MB"
  else if n < 1024 * 1024 * 1024 * 1024 then fmtOneDecimal n (1024 * 1024 * 1024) ++ " GB"
  else fmtOneDecimal n (1024 * 1024 * 1024 * 1024) ++ " TB"

/-- The plan item `_organize_by_size` builds for one scanned file. -/
def sizeItem (basePath : String) (sizeCats : List (String × Nat)) (e : FileEntry) : Item :=
  let cat := findSizeCategory sizeCats e.size
  ⟨e, "move", pathJoin basePath e.name, pathJoin (pathJoin basePath cat) e.name,
    cat, "Size: " ++ formatSize e.size⟩

/-- `_organize_by_size`. -/
def organizeBySize (files : List FileEntry) (basePath : String)
    (sizeCats : List (String × Nat)) : List Item :=
  files.map (sizeItem basePath sizeCats)

/-! ### Classifier: by date (`_organize_by_date`) -/

/-- The date loop: `target_category = 'Old_Files'`, then the first
declared threshold with `days_ago <= max_days` wins. -/
def findDateCategory : List (String × Nat) → Nat → String
  | [], _ => "Old_Files"
  | (cat, maxDays) :: rest, d => if d ≤ maxDays then cat else findDateCategory rest d

/-- The plan item `_organize_by_date` builds for one scanned file. -/
def dateItem (basePath : String) (dateCats : List (String × Nat)) (e : FileEntry) : Item :=
  let cat := findDateCategory dateCats e.ageDays
  ⟨e, "move", pathJoin basePath e.name, pathJoin (pathJoin basePath cat) e.name,
    cat, "Modified: " ++ natToDecS e.ageDays ++ " days ago"⟩

/-- `_organize_by_date`. -/
def organizeByDate (files : List FileEntry) (basePath : String)
    (dateCats : List (String × Nat)) : List Item :=
  files.map (dateItem basePath dateCats)

/-! ### Classifier: by content (`_organize_by_content`) -/

/-- The text-like extension allowlist checked via `file.suffix.lower()`. -/
def contentExts : List String :=
  [".txt", ".md", ".py", ".js", ".html", ".css"]

/-- Category and reason from the first 1024 characters of a text file's
content, lower-cased, checking the three keyword groups in priority
order. -/
def contentCategory (content : String) : String × String :=
  let c : String := ⟨(pyLower content).data.take 1024⟩
  if ["invoice", "bill", "receipt"].any (fun kw => strContains c kw) then
    ("Invoices", "Contains invoice-related content")
  else if ["resume", "cv", "curriculum"].any (fun kw => strContains c kw) then
    ("Resumes", "Contains resume-related content")
  else if ["password", "secret", "key"].any (fun kw => strContains c kw) then
    ("Sensitive", "Contains sensitive content")
  else ("Others", "Content analysis")

/-- The plan item `_organize_by_content` builds for one scanned file
(read failures fall through to `Others`; the model reads the recorded
content directly). -/
def contentItem (basePath : String) (e : FileEntry) : Item :=
  let cr :=
    if contentExts.contains (pyLower (pySuffix e.name)) then contentCategory e.content
    else ("Others", "Content analysis")
  ⟨e, "move", pathJoin basePath e.name, pathJoin (pathJoin basePath cr.1) e.name,
    cr.1, cr.2⟩

/-- `_organize_by_content`. -/
def organizeByContent (files : List FileEntry) (basePath : String) : List Item :=
  files.map (contentItem basePath)

/-! ### Rule engine (`_evaluate_rule_condition`, `_apply_custom_rules`) -/

/-- The single-quote character of the condition grammar. -/
def quoteChar : Char := '\x27'

/-- The string `"'"`. -/
def quoteS : String := "\x27"

/-- `_evaluate_rule_condition`: the ad hoc string-pattern evaluation of a
rule condition against a plan item's file metadata.  Any parse failure
(`IndexError`/`ValueError` inside the `try`) yields `false`. -/
def evaluateRuleCondition (it : Item) (condition : String) : Bool :=
  let ext := fileExtOfName it.entry.name
  let size := it.entry.size
  let daysAgo := it.entry.ageDays
  if strContains condition "extension ==" && strContains condition (quoteS ++ ext ++ quoteS) then
    if strContains condition "size >" then
      match (pySplit condition "size >")[1]? with
      | none => false
      | some part =>
        match pyWsSplitHead? part with
        | none => false
        | some tok =>
          match pyToInt? tok with
          | some lim => decide ((size : Int) > lim)
          | none => false
    else true
  else if strContains condition "filename_contains" then
    let keywords := ((pySplit condition "filename_contains(").drop 1).map (pyStripChar quoteChar)
    let keywords := keywords.map takeUntilParen
    keywords.any (fun kw => strContains (pyLower it.entry.name) (pyLower kw))
  else if strContains condition "modified_days_ago >" then
    match (pySplit condition ">")[1]? with
    | none => false
    | some part =>
      match pyToInt? (pyStrip part) with
      | some lim => decide ((daysAgo : Int) > lim)
      | none => false
  else false

/-- The in-place update `_apply_custom_rules` performs on one item for
one matching rule: the target becomes
`Path(target).parent / rule.target / Path(target).name`, and category and
reason are overwritten. -/
def applyRuleToItem (r : CustomRule) (it : Item) : Item :=
  if evaluateRuleCondition it r.condition then
    { it with
        target := pathJoin (pathJoin (pathParent it.target) r.target) (pathBase it.target)
        category := r.target
        reason := "Custom rule: " ++ r.name }
  else it

/-- `_apply_custom_rules`: every configured rule in declaration order,
applied to every plan item when the rule's name is profile-enabled. -/
def applyCustomRules (plan : List Item) (rules : List CustomRule)
    (enabledRules : List String) : List Item :=
  rules.foldl
    (fun pl r => if enabledRules.contains r.name then pl.map (applyRuleToItem r) else pl) plan

/-! ### Collision resolver (`_handle_duplicates`) -/

/-- Lookup in the `seen_names` dict (association list, newest binding
first — observationally Python's dict for the `in`, `[k]` and `[k] = v`
operations the source performs). -/
def dictLookup (d : List (String × Nat)) (k : String) : Option Nat :=
  (d.find? (fun p => p.1 == k)).map (fun p => p.2)

/-- `k in seen_names`. -/
def dictMem (d : List (String × Nat)) (k : String) : Bool :=
  d.any (fun p => p.1 == k)

/-- `seen_names[k] = v` (prepend; lookup and membership see the new
binding, exactly as the dict update does). -/
def dictSet (d : List (String × Nat)) (k : String) (v : Nat) : List (String × Nat) :=
  (k, v) :: d

/-- `f"{name}({counter}){ext}"`. -/
def mkSuffixed (stem : String) (counter : Nat) (ext : String) : String :=
  stem ++ "(" ++ natToDecS counter ++ ")" ++ ext

/-- The `while new_name in seen_names: counter += 1` search, fuelled.
A fuel of `d.length + 1` suffices: that many successive counters give
pairwise distinct candidate names, and the dict has at most `d.length`
keys, so the loop always exits within the fuel and the fuelled function
equals Python's unbounded loop. -/
def findFreeCounter (d : List (String × Nat)) (stem ext : String) : Nat → Nat → Nat
  | 0, c => c
  | fuel + 1, c =>
    if dictMem d (mkSuffixed stem c ext) then findFreeCounter d stem ext fuel (c + 1) else c

/-- Retargeting of an item to a new basename inside its current target
directory: `item['target'] = str(target_path.parent / new_name)`. -/
def setTargetName (it : Item) (newName : String) : Item :=
  { it with target := pathJoin (pathParent it.target) newName }

/-- The loop body of `_handle_duplicates` over the remaining plan,
threading `seen_names`. -/
def handleDupGo (seen : List (String × Nat)) : List Item → List Item
  | [] => []
  | it :: rest =>
    let originalName := pathBase it.target
    match dictLookup seen originalName with
    | some prev =>
      let se := splitextS originalName
      let counter := findFreeCounter seen se.1 se.2 (seen.length + 1) (prev + 1)
      setTargetName it (mkSuffixed se.1 counter se.2) ::
        handleDupGo (dictSet seen originalName counter) rest
    | none => it :: handleDupGo (dictSet seen originalName 1) rest

/-- `_handle_duplicates`. -/
def handleDuplicates (plan : List Item) : List Item :=
  handleDupGo [] plan

/-! ### Executor (`_execute_plan`) -/

/-- `shutil.move` in the filesystem model: relocate the first entry whose
path is `src`; a missing source is the modelled per-item failure
(`mkdir` of the target's parent needs no model step, directories being
implicit in the path strings). -/
def moveFile (fs : Fs) (src tgt : String) : Except String Fs :=
  match fs.find? (fun f => f.path == src) with
  | some f => .ok ({ f with path := tgt } :: fs.eraseP (fun g => g.path == src))
  | none => .error "No such file or directory"

/-- The `results["moved"]` record for a successfully moved item. -/
def mkMoved (it : Item) : MovedRecord :=
  ⟨it.entry.name, it.source, it.target, it.category, it.reason⟩

/-- The error string recorded for a failed item. -/
def mkMoveError (it : Item) (msg : String) : String :=
  "Error moving " ++ it.entry.name ++ ": " ++ msg

/-- `_execute_plan`: each item independently, collecting successes and
error strings in plan order; a failure leaves the filesystem unchanged
and processing continues. -/
def executePlan (fs : Fs) : List Item → OrgResults × Fs
  | [] => (emptyResults, fs)
  | it :: rest =>
    match moveFile fs it.source it.target with
    | .ok fs2 =>
      let r := executePlan fs2 rest
      ({ r.1 with moved := mkMoved it :: r.1.moved }, r.2)
    | .error msg =>
      let r := executePlan fs rest
      ({ r.1 with errors := mkMoveError it msg :: r.1.errors }, r.2)

/-! ### Entry point (`organize_folder`) -/

/-- The resolved plan `organize_folder` computes before deciding between
dry run and execution: existence check, profile lookup (missing profiles
behave as `{}`), scan, mode dispatch (unknown modes raise `ValueError`),
custom rules, duplicate resolution. -/
def organizePlan (cfg : Config) (basePath : String) (mode : String)
    (profileName : String) (fs : Fs) : Except String (List Item) :=
  if !(dirExists fs basePath) then
    .error ("Folder " ++ basePath ++ " does not exist")
  else
    let prof := (cfg.profiles.find? (fun p => p.name == profileName)).getD
      ⟨profileName, [], []⟩
    let files := scanFiles basePath fs
    let planned : Except String (List Item) :=
      if mode == "type" then .ok (organizeByType files basePath cfg.categories prof.enabledCategories)
      else if mode == "size" then .ok (organizeBySize files basePath cfg.sizeCategories)
      else if mode == "date" then .ok (organizeByDate files basePath cfg.dateCategories)
      else if mode == "content" then .ok (organizeByContent files basePath)
      else .error ("Unknown mode: " ++ mode)
    planned.map (fun plan => handleDuplicates (applyCustomRules plan cfg.rules prof.rules))

/-- `organize_folder`: on a dry run the plan is only displayed on the
console and the freshly initialised `results` dict is returned with the
filesystem untouched; otherwise the plan is executed.  (The non-dry path
additionally appends to the operation history, modelled separately by
`logOperation`.) -/
def organizeFolder (cfg : Config) (basePath : String) (mode : String)
    (profileName : String) (dryRun : Bool) (fs : Fs) : Except String (OrgResults × Fs) :=
  (organizePlan cfg basePath mode profileName fs).map
    (fun plan => if dryRun then (emptyResults, fs) else executePlan fs plan)

/-! ### Operation log and undo -/

/-- `_log_operation`: append one record to the in-memory history (the
serialisation of the whole history to `operation_history.json` is I/O
outside the model). -/
def logOperation (history : List OperationRecord) (op : OperationRecord) :
    List OperationRecord :=
  history ++ [op]

/-- `undo_last_operation`: `False` on an empty history; otherwise
`pop()` the most recent record and report `True` (the source never moves
files back — the undo body is a placeholder). -/
def undoLastOperation (history : List OperationRecord) : Bool × List OperationRecord :=
  if history.isEmpty then (false, history)
  else (true, history.dropLast)

/-! ### List helper lemmas -/

theorem takeWhile_append_stop {α : Type} (p : α → Bool) (c : α) (h : p c = false) :
    ∀ a b : List α, (a ++ c :: b).takeWhile p = a.takeWhile p
  | [], b => by simp [List.takeWhile, h]
  | x :: a, b => by
    cases hx : p x <;>
      simp [List.takeWhile, hx, takeWhile_append_stop p c h a b]

theorem takeWhile_all {α : Type} (p : α → Bool) :
    ∀ l : List α, (∀ x ∈ l, p x = true) → l.takeWhile p = l
  | [], _ => rfl
  | x :: l, h => by
    have hx : p x = true := h x (by simp)
    simp [List.takeWhile, hx, takeWhile_all p l (fun y hy => h y (by simp [hy]))]

theorem mem_takeWhile_pred {α : Type} (p : α → Bool) :
    ∀ l : List α, ∀ x ∈ l.takeWhile p, p x = true
  | a :: l, x, hx => by
    cases ha : p a with
    | false => simp [List.takeWhile, ha] at hx
    | true =>
      simp [List.takeWhile, ha] at hx
      rcases hx with rfl | hx
      · exact ha
      · exact mem_takeWhile_pred p l x hx

theorem dropWhile_append_all {α : Type} (p : α → Bool) :
    ∀ a b : List α, (∀ x ∈ a, p x = true) → (a ++ b).dropWhile p = b.dropWhile p
  | [], b, _ => rfl
  | x :: a, b, h => by
    have hx : p x = true := h x (by simp)
    simp [List.dropWhile, hx, dropWhile_append_all p a b (fun y hy => h y (by simp [hy]))]

theorem dropWhile_cons_stop {α : Type} (p : α → Bool) (c : α) (h : p c = false) (b : List α) :
    (c :: b).dropWhile p = c :: b := by
  simp [List.dropWhile, h]

/-! ### String data lemmas -/

theorem strMk_data (s : String) : (⟨s.data⟩ : String) = s := by
  cases s
  rfl

theorem strEq_of_data {s t : String} (h : s.data = t.data) : s = t :=
  congrArg String.mk h

theorem strEq_empty_iff (s : String) : s = "" ↔ s.data = [] := by
  constructor
  · intro h
    rw [h]
  · intro h
    exact strEq_of_data (by rw [h])

theorem strNe_empty_iff (s : String) : s ≠ "" ↔ s.data ≠ [] :=
  not_congr (strEq_empty_iff s)

/-! ### Path lemmas -/

theorem basenameL_append_slash (a b : List Char) :
    basenameL (a ++ '/' :: b) = basenameL b := by
  unfold basenameL
  rw [List.reverse_append, List.reverse_cons, List.append_assoc, List.singleton_append,
    takeWhile_append_stop _ '/' (by simp)]

theorem basenameL_no_slash (l : List Char) (h : '/' ∉ l) : basenameL l = l := by
  unfold basenameL
  rw [takeWhile_all _ l.reverse, List.reverse_reverse]
  intro x hx
  simp only [List.mem_reverse] at hx
  simp only [decide_eq_true_eq]
  rintro rfl
  exact h hx

theorem slash_not_mem_basenameL (l : List Char) : '/' ∉ basenameL l := by
  unfold basenameL
  intro hx
  rw [List.mem_reverse] at hx
  have := mem_takeWhile_pred _ _ _ hx
  simp at this

theorem parentL_no_slash (l : List Char) (h : '/' ∉ l) : parentL l = ['.'] := by
  unfold parentL
  rw [if_neg (show ¬(l.contains '/' = true) by simp [h])]

theorem parentL_append_slash (a b : List Char) (h : '/' ∉ b) :
    parentL (a ++ '/' :: b) = if a = [] then ['/'] else a := by
  unfold parentL
  have hc : (a ++ '/' :: b).contains '/' = true := by
    simp
  rw [hc]
  simp only [if_true]
  have hrev : (a ++ '/' :: b).reverse = b.reverse ++ '/' :: a.reverse := by
    rw [List.reverse_append, List.reverse_cons, List.append_assoc, List.singleton_append]
  rw [hrev, dropWhile_append_all, dropWhile_cons_stop _ '/' (by simp)]
  · cases a with
    | nil => simp
    | cons x xs =>
      have hne : ('/' :: (x :: xs).reverse).reverse ≠ ['/'] := by
        intro heq
        have := congrArg List.length heq
        simp at this
      rw [List.reverse_cons]
      rw [List.reverse_cons] at hne
      simp only [List.reverse_reverse] at hne ⊢
      rw [if_neg hne, List.dropLast_concat]
      simp
  · intro x hx
    simp only [List.mem_reverse] at hx
    simp only [decide_eq_true_eq]
    rintro rfl
    exact h hx

theorem dropWhile_ne_nil {α : Type} (p : α → Bool) :
    ∀ l : List α, ∀ x ∈ l, p x = false → l.dropWhile p ≠ []
  | a :: l, x, hx, hp => by
    cases ha : p a with
    | false => simp [List.dropWhile, ha]
    | true =>
      simp only [List.dropWhile, ha]
      rcases List.mem_cons.mp hx with rfl | hx
      · rw [ha] at hp
        exact absurd hp (by simp)
      · exact dropWhile_ne_nil p l x hx hp

theorem head_dropWhile_false {α : Type} (p : α → Bool) :
    ∀ l : List α, ∀ c t, l.dropWhile p = c :: t → p c = false
  | [], c, t, h => by simp [List.dropWhile] at h
  | a :: l, c, t, h => by
    cases ha : p a with
    | false =>
      simp only [List.dropWhile, ha] at h
      obtain ⟨rfl, -⟩ := List.cons.injEq a l c t ▸ h
      exact ha
    | true =>
      simp only [List.dropWhile, ha] at h
      exact head_dropWhile_false p l c t h

theorem parentL_ne_nil (l : List Char) : parentL l ≠ [] := by
  unfold parentL
  by_cases hc : l.contains '/' = true
  · rw [if_pos hc]
    have hmem : '/' ∈ l.reverse := by
      rw [List.mem_reverse]
      simpa using hc
    obtain ⟨c, t, hct⟩ : ∃ c t, l.reverse.dropWhile (· ≠ '/') = c :: t := by
      cases hdw : l.reverse.dropWhile (· ≠ '/') with
      | nil => exact absurd hdw (dropWhile_ne_nil _ _ '/' hmem (by simp))
      | cons c t => exact ⟨c, t, rfl⟩
    rw [hct]
    by_cases hpre : (c :: t).reverse = ['/']
    · rw [if_pos hpre, hpre]
      simp
    · rw [if_neg hpre]
      have hcslash : c = '/' := by
        have := head_dropWhile_false _ _ _ _ hct
        simpa using this
      cases t with
      | nil => exact absurd (by simp [hcslash]) hpre
      | cons d t' =>
        intro hnil
        have := congrArg List.length hnil
        simp [List.length_dropLast] at this
  · rw [if_neg hc]
    simp

theorem pathParent_ne_empty (s : String) : pathParent s ≠ "" := by
  rw [strNe_empty_iff]
  exact parentL_ne_nil s.data

theorem pathBase_pathJoin (p nm : String) (h : '/' ∉ nm.data) :
    pathBase (pathJoin p nm) = nm := by
  unfold pathJoin pathBase
  by_cases h1 : p = "." ∨ p = ""
  · rw [if_pos h1, basenameL_no_slash _ h, strMk_data]
  · rw [if_neg h1]
    by_cases h2 : p = "/"
    · rw [if_pos h2]
      subst h2
      rw [show ("/" ++ nm).data = [] ++ '/' :: nm.data from by simp,
        basenameL_append_slash, basenameL_no_slash _ h, strMk_data]
    · rw [if_neg h2]
      rw [show (p ++ "/" ++ nm).data = p.data ++ '/' :: nm.data from by
          simp [List.append_assoc],
        basenameL_append_slash, basenameL_no_slash _ h, strMk_data]

theorem pathParent_pathJoin (p nm : String) (h : '/' ∉ nm.data) (hp : p ≠ "") :
    pathParent (pathJoin p nm) = p := by
  unfold pathJoin pathParent
  by_cases h1 : p = "." ∨ p = ""
  · have hp' : p = "." := by
      rcases h1 with h1 | h1
      · exact h1
      · exact absurd h1 hp
    rw [if_pos h1, hp']
    exact strEq_of_data (by rw [parentL_no_slash _ h])
  · rw [if_neg h1]
    by_cases h2 : p = "/"
    · rw [if_pos h2]
      subst h2
      apply strEq_of_data
      rw [show ("/" ++ nm).data = [] ++ '/' :: nm.data from by simp,
        parentL_append_slash _ _ h]
      simp
    · rw [if_neg h2]
      apply strEq_of_data
      rw [show (p ++ "/" ++ nm).data = p.data ++ '/' :: nm.data from by
          simp [List.append_assoc],
        parentL_append_slash _ _ h]
      rw [if_neg ((strNe_empty_iff p).mp hp)]

/-! ### Decimal rendering lemmas -/

theorem decVal_append_digit (l : List Char) (c : Char) :
    decVal (l ++ [c]) = decVal l * 10 + (c.toNat - 48) := by
  simp [decVal, List.foldl_append]

theorem digitChar_toNat_sub (d : Nat) (h : d < 10) : (Nat.digitChar d).toNat - 48 = d := by
  interval_cases d <;> rfl

theorem digitChar_ne_slash (d : Nat) (h : d < 10) : Nat.digitChar d ≠ '/' := by
  interval_cases d <;> decide

theorem decVal_natDecAux : ∀ f n : Nat, n < f → decVal (natDecAux f n) = n
  | 0, n, h => absurd h (Nat.not_lt_zero n)
  | f + 1, n, h => by
    by_cases h0 : n = 0
    · simp [natDecAux, h0, decVal]
    · rw [natDecAux, if_neg h0, decVal_append_digit,
        digitChar_toNat_sub _ (Nat.mod_lt n (by omega)),
        decVal_natDecAux f (n / 10) (by
          have hlt : n / 10 < n := Nat.div_lt_self (by omega) (by omega)
          omega)]
      omega

theorem decVal_natToDec (n : Nat) : decVal (natToDec n) = n := by
  by_cases h0 : n = 0
  · simp [natToDec, h0, decVal]
  · rw [natToDec, if_neg h0]
    exact decVal_natDecAux (n + 1) n (Nat.lt_succ_self n)

theorem natToDec_inj {a b : Nat} (h : natToDec a = natToDec b) : a = b := by
  rw [← decVal_natToDec a, ← decVal_natToDec b, h]

theorem slash_not_mem_natDecAux : ∀ f n : Nat, '/' ∉ natDecAux f n
  | 0, n => by simp [natDecAux]
  | f + 1, n => by
    by_cases h0 : n = 0
    · simp [natDecAux, h0]
    · rw [natDecAux, if_neg h0]
      intro hmem
      rcases List.mem_append.mp hmem with hmem | hmem
      · exact slash_not_mem_natDecAux f (n / 10) hmem
      · have := List.mem_singleton.mp hmem
        exact digitChar_ne_slash _ (Nat.mod_lt n (by omega)) this.symm

theorem slash_not_mem_natToDec (n : Nat) : '/' ∉ natToDec n := by
  by_cases h0 : n = 0
  · simp [natToDec, h0]
  · rw [natToDec, if_neg h0]
    exact slash_not_mem_natDecAux (n + 1) n

/-! ### Suffixed-name lemmas -/

theorem mkSuffixed_data (s e : String) (c : Nat) :
    (mkSuffixed s c e).data = s.data ++ '(' :: (natToDec c ++ ')' :: e.data) := by
  simp [mkSuffixed, natToDecS, List.append_assoc]

theorem slash_not_mem_mkSuffixed (s e : String) (c : Nat)
    (hs : '/' ∉ s.data) (he : '/' ∉ e.data) : '/' ∉ (mkSuffixed s c e).data := by
  rw [mkSuffixed_data]
  intro hmem
  rcases List.mem_append.mp hmem with hmem | hmem
  · exact hs hmem
  · rcases List.mem_cons.mp hmem with heq | hmem
    · exact absurd heq (by decide)
    · rcases List.mem_append.mp hmem with hmem | hmem
      · exact slash_not_mem_natToDec c hmem
      · rcases List.mem_cons.mp hmem with heq | hmem
        · exact absurd heq (by decide)
        · exact he hmem

theorem mkSuffixed_ne_recompose (s e b : String) (c : Nat) (hse : s ++ e = b) :
    mkSuffixed s c e ≠ b := by
  intro heq
  have hdata := congrArg String.data heq
  rw [mkSuffixed_data, ← hse] at hdata
  have hlen := congrArg List.length hdata
  simp [List.length_append] at hlen
  omega

theorem mkSuffixed_inj_counter (s e : String) {a b : Nat}
    (h : mkSuffixed s a e = mkSuffixed s b e) : a = b := by
  have hdata := congrArg String.data h
  rw [mkSuffixed_data, mkSuffixed_data] at hdata
  have h2 := List.append_cancel_left hdata
  have h3 : natToDec a ++ ')' :: e.data = natToDec b ++ ')' :: e.data := by
    exact (List.cons.injEq _ _ _ _ ▸ h2).2
  have hlen : (natToDec a).length = (natToDec b).length := by
    have := congrArg List.length h3
    simp [List.length_append] at this
    omega
  exact natToDec_inj (List.append_inj_left h3 hlen)

/-! ### `splitext` lemmas -/

theorem strMk_append (x y : List Char) :
    ((⟨x⟩ : String) ++ (⟨y⟩ : String)) = (⟨x ++ y⟩ : String) :=
  rfl

theorem splitextS_recompose (b : String) : (splitextS b).1 ++ (splitextS b).2 = b := by
  unfold splitextS
  cases hidx : lastDotIdx? b.data with
  | none =>
    simp only
    exact strEq_of_data (by simp)
  | some i =>
    simp only
    by_cases hall : (b.data.take i).all (· = '.')
    · rw [if_pos hall]
      exact strEq_of_data (by simp)
    · rw [if_neg hall]
      rw [strMk_append]
      exact strEq_of_data (by simp [List.take_append_drop])

theorem splitextS_stem_no_slash (b : String) (h : '/' ∉ b.data) :
    '/' ∉ (splitextS b).1.data := by
  unfold splitextS
  cases hidx : lastDotIdx? b.data with
  | none => exact h
  | some i =>
    simp only
    by_cases hall : (b.data.take i).all (· = '.')
    · rw [if_pos hall]
      exact h
    · rw [if_neg hall]
      intro hmem
      exact h (List.take_subset i b.data hmem)

theorem splitextS_ext_no_slash (b : String) (h : '/' ∉ b.data) :
    '/' ∉ (splitextS b).2.data := by
  unfold splitextS
  cases hidx : lastDotIdx? b.data with
  | none => simp
  | some i =>
    simp only
    by_cases hall : (b.data.take i).all (· = '.')
    · rw [if_pos hall]
      simp
    · rw [if_neg hall]
      intro hmem
      exact h (List.drop_subset i b.data hmem)

/-! ### `seen_names` dict lemmas -/

theorem dictLookup_set (d : List (String × Nat)) (k : String) (v : Nat) (x : String) :
    dictLookup (dictSet d k v) x = if k = x then some v else dictLookup d x := by
  by_cases h : k = x
  · simp [dictLookup, dictSet, List.find?, h]
  · have hb : (k == x) = false := by
      simp [h]
    simp [dictLookup, dictSet, List.find?, hb, h]

theorem dictMem_set (d : List (String × Nat)) (k : String) (v : Nat) (x : String) :
    dictMem (dictSet d k v) x = ((k == x) || dictMem d x) := by
  simp [dictMem, dictSet]

theorem dictLookup_nil (x : String) : dictLookup [] x = none :=
  rfl

theorem dictMem_false_lookup_none (d : List (String × Nat)) (x : String)
    (h : dictMem d x = false) : dictLookup d x = none := by
  induction d with
  | nil => rfl
  | cons p d ih =>
    simp only [dictMem, List.any_cons, Bool.or_eq_false_iff] at h
    simp only [dictLookup, List.find?, h.1]
    exact ih (by simp [dictMem, h.2])

/-! ### `findFreeCounter` lemmas -/

theorem findFreeCounter_ge (d : List (String × Nat)) (s e : String) :
    ∀ f c, c ≤ findFreeCounter d s e f c
  | 0, c => Nat.le_refl c
  | f + 1, c => by
    rw [findFreeCounter]
    by_cases h : dictMem d (mkSuffixed s c e) = true
    · rw [if_pos h]
      exact Nat.le_trans (Nat.le_succ c) (findFreeCounter_ge d s e f (c + 1))
    · rw [if_neg h]

theorem findFreeCounter_not_mem (d : List (String × Nat)) (s e : String) :
    ∀ f c, (∀ c2, c ≤ c2 → dictMem d (mkSuffixed s c2 e) = false) →
      findFreeCounter d s e f c = c
  | 0, c, _ => rfl
  | f + 1, c, h => by
    rw [findFreeCounter, if_neg (by simp [h c (Nat.le_refl c)])]

/-! ### Collision-resolver lemmas -/

theorem slash_not_mem_pathBase (s : String) : '/' ∉ (pathBase s).data :=
  slash_not_mem_basenameL s.data

theorem setTargetName_base (it : Item) (nm : String) (h : '/' ∉ nm.data) :
    pathBase (setTargetName it nm).target = nm := by
  simp only [setTargetName]
  exact pathBase_pathJoin _ _ h

theorem setTargetName_parent (it : Item) (nm : String) (h : '/' ∉ nm.data) :
    pathParent (setTargetName it nm).target = pathParent it.target := by
  simp only [setTargetName]
  exact pathParent_pathJoin _ _ h (pathParent_ne_empty it.target)

theorem suffixOfBase_no_slash (s : String) (c : Nat) :
    '/' ∉ (mkSuffixed (splitextS (pathBase s)).1 c (splitextS (pathBase s)).2).data :=
  slash_not_mem_mkSuffixed _ _ _
    (splitextS_stem_no_slash _ (slash_not_mem_pathBase s))
    (splitextS_ext_no_slash _ (slash_not_mem_pathBase s))

theorem handleDupGo_nil (seen : List (String × Nat)) : handleDupGo seen [] = [] :=
  rfl

theorem handleDupGo_cons_some (seen : List (String × Nat)) (it : Item) (rest : List Item)
    (prev : Nat) (h : dictLookup seen (pathBase it.target) = some prev) :
    handleDupGo seen (it :: rest) =
      setTargetName it
          (mkSuffixed (splitextS (pathBase it.target)).1
            (findFreeCounter seen (splitextS (pathBase it.target)).1
              (splitextS (pathBase it.target)).2 (seen.length + 1) (prev + 1))
            (splitextS (pathBase it.target)).2) ::
        handleDupGo
          (dictSet seen (pathBase it.target)
            (findFreeCounter seen (splitextS (pathBase it.target)).1
              (splitextS (pathBase it.target)).2 (seen.length + 1) (prev + 1)))
          rest := by
  simp only [handleDupGo, h]

theorem handleDupGo_cons_none (seen : List (String × Nat)) (it : Item) (rest : List Item)
    (h : dictLookup seen (pathBase it.target) = none) :
    handleDupGo seen (it :: rest) =
      it :: handleDupGo (dictSet seen (pathBase it.target) 1) rest := by
  simp only [handleDupGo, h]

theorem handleDupGo_length :
    ∀ (l : List Item) (seen : List (String × Nat)), (handleDupGo seen l).length = l.length
  | [], _ => rfl
  | it :: rest, seen => by
    cases hdl : dictLookup seen (pathBase it.target) with
    | some prev =>
      rw [handleDupGo_cons_some seen it rest prev hdl]
      simp [handleDupGo_length rest _]
    | none =>
      rw [handleDupGo_cons_none seen it rest hdl]
      simp [handleDupGo_length rest _]

/-- Every later occurrence of an already-seen original basename is
renamed to a suffixed name with a strictly larger counter than the one
currently stored for that basename. -/
theorem handleDupGo_suffix :
    ∀ (rest : List Item) (seen : List (String × Nat)) (k : Nat) (it : Item) (o : String)
      (c : Nat),
      dictLookup seen o = some c →
      rest[k]? = some it → pathBase it.target = o →
      ∃ c2, c < c2 ∧
        (handleDupGo seen rest)[k]? =
          some (setTargetName it (mkSuffixed (splitextS o).1 c2 (splitextS o).2))
  | [], _, k, it, o, c, _, hk, _ => by simp at hk
  | r :: rs, seen, 0, it, o, c, hl, hk, ho => by
    have hit : r = it := by simpa using hk
    subst hit
    have hl' : dictLookup seen (pathBase r.target) = some c := by
      rw [ho]
      exact hl
    rw [handleDupGo_cons_some seen r rs c hl']
    refine ⟨findFreeCounter seen (splitextS (pathBase r.target)).1
      (splitextS (pathBase r.target)).2 (seen.length + 1) (c + 1), ?_, ?_⟩
    · exact Nat.lt_of_lt_of_le (Nat.lt_succ_self c) (findFreeCounter_ge _ _ _ _ _)
    · rw [ho]
      simp
  | r :: rs, seen, k + 1, it, o, c, hl, hk, ho => by
    simp only [List.getElem?_cons_succ] at hk
    cases hdl : dictLookup seen (pathBase r.target) with
    | some prevR =>
      rw [handleDupGo_cons_some seen r rs prevR hdl]
      simp only [List.getElem?_cons_succ]
      by_cases heq : pathBase r.target = o
      · rw [heq] at hdl
        have hpc : prevR = c := by
          rw [hdl] at hl
          exact Option.some.inj hl
        subst hpc
        set counter := findFreeCounter seen (splitextS (pathBase r.target)).1
          (splitextS (pathBase r.target)).2 (seen.length + 1) (prevR + 1) with hcounter
        have hl2 : dictLookup (dictSet seen (pathBase r.target) counter) o = some counter := by
          rw [dictLookup_set, if_pos heq]
        obtain ⟨c2, hc2, hres⟩ := handleDupGo_suffix rs _ k it o counter hl2 hk ho
        refine ⟨c2, ?_, hres⟩
        have : prevR < counter :=
          Nat.lt_of_lt_of_le (Nat.lt_succ_self prevR) (findFreeCounter_ge _ _ _ _ _)
        omega
      · have hl2 : dictLookup (dictSet seen (pathBase r.target)
            (findFreeCounter seen (splitextS (pathBase r.target)).1
              (splitextS (pathBase r.target)).2 (seen.length + 1) (prevR + 1))) o = some c := by
          rw [dictLookup_set, if_neg heq]
          exact hl
        obtain ⟨c2, hc2, hres⟩ := handleDupGo_suffix rs _ k it o c hl2 hk ho
        exact ⟨c2, hc2, hres⟩
    | none =>
      rw [handleDupGo_cons_none seen r rs hdl]
      simp only [List.getElem?_cons_succ]
      by_cases heq : pathBase r.target = o
      · rw [heq] at hdl
        rw [hdl] at hl
        exact absurd hl (by simp)
      · have hl2 : dictLookup (dictSet seen (pathBase r.target) 1) o = some c := by
          rw [dictLookup_set, if_neg heq]
          exact hl
        obtain ⟨c2, hc2, hres⟩ := handleDupGo_suffix rs _ k it o c hl2 hk ho
        exact ⟨c2, hc2, hres⟩

/-- Two plan items with the same original target basename never resolve
to the same final basename: the first keeps the name or gets the stored
counter, every later one gets a strictly larger counter, and a suffixed
name never equals the plain name. -/
theorem handleDupGo_distinct :
    ∀ (l : List Item) (seen : List (String × Nat)) (i j : Nat) (iti itj ri rj : Item),
      i < j → l[i]? = some iti → l[j]? = some itj →
      pathBase iti.target = pathBase itj.target →
      (handleDupGo seen l)[i]? = some ri → (handleDupGo seen l)[j]? = some rj →
      pathBase ri.target ≠ pathBase rj.target
  | [], _, i, _, _, _, _, _, _, hi, _, _, _, _ => by simp at hi
  | r :: rs, seen, i, j, iti, itj, ri, rj, hij, hi, hj, hb, hri, hrj => by
    cases j with
    | zero => omega
    | succ m =>
      simp only [List.getElem?_cons_succ] at hj
      cases i with
      | zero =>
        rw [List.getElem?_cons_zero] at hi
        have hiti : iti = r := (Option.some.inj hi).symm
        subst hiti
        cases hdl : dictLookup seen (pathBase iti.target) with
        | none =>
          rw [handleDupGo_cons_none seen iti rs hdl] at hri hrj
          rw [List.getElem?_cons_zero] at hri
          have hri' : ri = iti := (Option.some.inj hri).symm
          simp only [List.getElem?_cons_succ] at hrj
          have hl2 : dictLookup (dictSet seen (pathBase iti.target) 1)
              (pathBase itj.target) = some 1 := by
            rw [dictLookup_set, if_pos hb]
          obtain ⟨c2, hc2, hres⟩ :=
            handleDupGo_suffix rs _ m itj (pathBase itj.target) 1 hl2 hj rfl
          rw [hres] at hrj
          have hrj' : rj = setTargetName itj
              (mkSuffixed (splitextS (pathBase itj.target)).1 c2
                (splitextS (pathBase itj.target)).2) := (Option.some.inj hrj).symm
          rw [hri', hrj']
          rw [setTargetName_base _ _ (suffixOfBase_no_slash itj.target c2), hb]
          exact Ne.symm (mkSuffixed_ne_recompose _ _ _ c2 (splitextS_recompose _))
        | some prev =>
          rw [handleDupGo_cons_some seen iti rs prev hdl] at hri hrj
          rw [List.getElem?_cons_zero] at hri
          have hri' : ri = setTargetName iti
              (mkSuffixed (splitextS (pathBase iti.target)).1
                (findFreeCounter seen (splitextS (pathBase iti.target)).1
                  (splitextS (pathBase iti.target)).2 (seen.length + 1) (prev + 1))
                (splitextS (pathBase iti.target)).2) := (Option.some.inj hri).symm
          simp only [List.getElem?_cons_succ] at hrj
          have hl2 : dictLookup (dictSet seen (pathBase iti.target)
              (findFreeCounter seen (splitextS (pathBase iti.target)).1
                (splitextS (pathBase iti.target)).2 (seen.length + 1) (prev + 1)))
              (pathBase itj.target) =
              some (findFreeCounter seen (splitextS (pathBase iti.target)).1
                (splitextS (pathBase iti.target)).2 (seen.length + 1) (prev + 1)) := by
            rw [dictLookup_set, if_pos hb]
          obtain ⟨c2, hc2, hres⟩ :=
            handleDupGo_suffix rs _ m itj (pathBase itj.target) _ hl2 hj rfl
          rw [hres] at hrj
          have hrj' : rj = setTargetName itj
              (mkSuffixed (splitextS (pathBase itj.target)).1 c2
                (splitextS (pathBase itj.target)).2) := (Option.some.inj hrj).symm
          rw [hri', hrj']
          rw [setTargetName_base _ _ (suffixOfBase_no_slash iti.target _),
            setTargetName_base _ _ (suffixOfBase_no_slash itj.target c2), hb]
          rw [hb] at hc2
          intro heq
          have := mkSuffixed_inj_counter _ _ heq
          omega
      | succ h =>
        simp only [List.getElem?_cons_succ] at hi
        cases hdl : dictLookup seen (pathBase r.target) with
        | none =>
          rw [handleDupGo_cons_none seen r rs hdl] at hri hrj
          simp only [List.getElem?_cons_succ] at hri hrj
          exact handleDupGo_distinct rs _ h m iti itj ri rj (by omega) hi hj hb hri hrj
        | some prev =>
          rw [handleDupGo_cons_some seen r rs prev hdl] at hri hrj
          simp only [List.getElem?_cons_succ] at hri hrj
          exact handleDupGo_distinct rs _ h m iti itj ri rj (by omega) hi hj hb hri hrj

theorem dictMem_eq_false_of_keys (d : List (String × Nat)) (b nm : String)
    (hkeys : ∀ q ∈ d, q.1 = b) (hne : nm ≠ b) : dictMem d nm = false := by
  simp only [dictMem, List.any_eq_false]
  intro q hq
  rw [hkeys q hq]
  simp only [beq_iff_eq]
  exact fun h => hne h.symm

/-- On a plan whose items all share one original target basename `b` and
a dict whose keys are all `b` with stored counter `k`, the `m`-th item is
renamed with counter `k + 1 + m`. -/
theorem handleDupGo_uniform :
    ∀ (rs : List Item) (seen : List (String × Nat)) (k : Nat) (b : String),
      (∀ q ∈ seen, q.1 = b) →
      dictLookup seen b = some k →
      (∀ it ∈ rs, pathBase it.target = b) →
      ∀ m it, rs[m]? = some it →
        (handleDupGo seen rs)[m]? =
          some (setTargetName it (mkSuffixed (splitextS b).1 (k + 1 + m) (splitextS b).2))
  | [], _, _, _, _, _, _, m, it, hm => by simp at hm
  | r :: rs', seen, k, b, hkeys, hlook, hall, m, it, hm => by
    have hrb : pathBase r.target = b := hall r (by simp)
    have hl' : dictLookup seen (pathBase r.target) = some k := by
      rw [hrb]
      exact hlook
    have hcnt : findFreeCounter seen (splitextS (pathBase r.target)).1
        (splitextS (pathBase r.target)).2 (seen.length + 1) (k + 1) = k + 1 := by
      apply findFreeCounter_not_mem
      intro c2 _
      rw [hrb]
      exact dictMem_eq_false_of_keys seen b _ hkeys
        (mkSuffixed_ne_recompose _ _ _ c2 (splitextS_recompose b))
    rw [handleDupGo_cons_some seen r rs' k hl', hcnt]
    cases m with
    | zero =>
      rw [List.getElem?_cons_zero] at hm
      have : r = it := Option.some.inj hm
      subst this
      rw [List.getElem?_cons_zero, hrb]
    | succ m' =>
      rw [List.getElem?_cons_succ]
      rw [List.getElem?_cons_succ] at hm
      have harr : k + 1 + (m' + 1) = k + 1 + 1 + m' := by omega
      rw [harr]
      apply handleDupGo_uniform rs' _ (k + 1) b
      · intro q hq
        rcases List.mem_cons.mp hq with rfl | hq
        · exact hrb
        · exact hkeys q hq
      · rw [dictLookup_set, if_pos hrb]
      · exact fun it2 h2 => hall it2 (by simp [h2])
      · exact hm

/-- Duplicate resolution only rewrites the target basename: every other
field, and the target's parent directory, is preserved. -/
theorem handleDupGo_frame :
    ∀ (l : List Item) (seen : List (String × Nat)) (i : Nat) (it : Item),
      l[i]? = some it →
      ∃ it2, (handleDupGo seen l)[i]? = some it2 ∧
        it2.entry = it.entry ∧ it2.action = it.action ∧ it2.source = it.source ∧
        it2.category = it.category ∧ it2.reason = it.reason ∧
        pathParent it2.target = pathParent it.target
  | [], _, i, it, hi => by simp at hi
  | r :: rs, seen, 0, it, hi => by
    rw [List.getElem?_cons_zero] at hi
    have : r = it := Option.some.inj hi
    subst this
    cases hdl : dictLookup seen (pathBase r.target) with
    | none =>
      rw [handleDupGo_cons_none _ _ _ hdl]
      exact ⟨r, by simp, rfl, rfl, rfl, rfl, rfl, rfl⟩
    | some prev =>
      rw [handleDupGo_cons_some _ _ _ prev hdl]
      refine ⟨setTargetName r
        (mkSuffixed (splitextS (pathBase r.target)).1
          (findFreeCounter seen (splitextS (pathBase r.target)).1
            (splitextS (pathBase r.target)).2 (seen.length + 1) (prev + 1))
          (splitextS (pathBase r.target)).2),
        by rw [List.getElem?_cons_zero], rfl, rfl, rfl, rfl, rfl, ?_⟩
      exact setTargetName_parent _ _ (suffixOfBase_no_slash r.target _)
  | r :: rs, seen, i + 1, it, hi => by
    simp only [List.getElem?_cons_succ] at hi
    cases hdl : dictLookup seen (pathBase r.target) with
    | none =>
      rw [handleDupGo_cons_none _ _ _ hdl]
      simpa only [List.getElem?_cons_succ] using handleDupGo_frame rs _ i it hi
    | some prev =>
      rw [handleDupGo_cons_some _ _ _ prev hdl]
      simpa only [List.getElem?_cons_succ] using handleDupGo_frame rs _ i it hi

/-- An item whose original target basename has not been seen before (in
the dict or among the earlier plan items) is passed through unchanged. -/
theorem handleDupGo_first :
    ∀ (l : List Item) (seen : List (String × Nat)) (i : Nat) (it : Item),
      l[i]? = some it →
      dictMem seen (pathBase it.target) = false →
      (∀ j itj, j < i → l[j]? = some itj → pathBase itj.target ≠ pathBase it.target) →
      (handleDupGo seen l)[i]? = some it
  | [], _, i, it, hi, _, _ => by simp at hi
  | r :: rs, seen, 0, it, hi, hmem, _ => by
    rw [List.getElem?_cons_zero] at hi
    have : r = it := Option.some.inj hi
    subst this
    rw [handleDupGo_cons_none _ _ _ (dictMem_false_lookup_none _ _ hmem)]
    simp
  | r :: rs, seen, i + 1, it, hi, hmem, hprior => by
    simp only [List.getElem?_cons_succ] at hi
    have hrne : pathBase r.target ≠ pathBase it.target :=
      hprior 0 r (by omega) (by simp)
    have hmem2 : ∀ v, dictMem (dictSet seen (pathBase r.target) v)
        (pathBase it.target) = false := by
      intro v
      rw [dictMem_set]
      simp [hmem, hrne]
    have hprior2 : ∀ j itj, j < i → rs[j]? = some itj →
        pathBase itj.target ≠ pathBase it.target :=
      fun j itj hj hjg => hprior (j + 1) itj (by omega) (by simpa using hjg)
    cases hdl : dictLookup seen (pathBase r.target) with
    | none =>
      rw [handleDupGo_cons_none _ _ _ hdl]
      simpa only [List.getElem?_cons_succ] using
        handleDupGo_first rs _ i it hi (hmem2 1) hprior2
    | some prev =>
      rw [handleDupGo_cons_some _ _ _ prev hdl]
      simpa only [List.getElem?_cons_succ] using
        handleDupGo_first rs _ i it hi (hmem2 _) hprior2

/-! ### Rule-engine lemmas -/

/-- The per-item view of `_apply_custom_rules`: the fold of all enabled
rules over one item (items are processed independently, so the
rule-outer/item-inner loops commute into a map of this fold). -/
def itemRulesFold (rules : List CustomRule) (enabledRules : List String) (it : Item) : Item :=
  rules.foldl (fun x r => if enabledRules.contains r.name then applyRuleToItem r x else x) it

theorem applyCustomRules_eq_map :
    ∀ (rules : List CustomRule) (plan : List Item) (enabledRules : List String),
      applyCustomRules plan rules enabledRules = plan.map (itemRulesFold rules enabledRules)
  | [], plan, en => by
    have hfun : itemRulesFold [] en = id := funext fun it => rfl
    rw [hfun, List.map_id]
    rfl
  | r :: rs, plan, en => by
    have hstep : applyCustomRules plan (r :: rs) en =
        applyCustomRules
          (if en.contains r.name then plan.map (applyRuleToItem r) else plan) rs en := rfl
    by_cases h : en.contains r.name
    · rw [hstep, if_pos h, applyCustomRules_eq_map rs _ en, List.map_map]
      have hfun : itemRulesFold rs en ∘ applyRuleToItem r = itemRulesFold (r :: rs) en := by
        funext it
        show itemRulesFold rs en (applyRuleToItem r it) =
          itemRulesFold rs en (if en.contains r.name then applyRuleToItem r it else it)
        rw [if_pos h]
      rw [hfun]
    · rw [hstep, if_neg h, applyCustomRules_eq_map rs _ en]
      have hfun : itemRulesFold rs en = itemRulesFold (r :: rs) en := by
        funext it
        show itemRulesFold rs en it =
          itemRulesFold rs en (if en.contains r.name then applyRuleToItem r it else it)
        rw [if_neg h]
      rw [hfun]

theorem applyRuleToItem_entry (r : CustomRule) (it : Item) :
    (applyRuleToItem r it).entry = it.entry := by
  by_cases h : evaluateRuleCondition it r.condition <;> simp [applyRuleToItem, h]

theorem applyRuleToItem_action (r : CustomRule) (it : Item) :
    (applyRuleToItem r it).action = it.action := by
  by_cases h : evaluateRuleCondition it r.condition <;> simp [applyRuleToItem, h]

theorem applyRuleToItem_source (r : CustomRule) (it : Item) :
    (applyRuleToItem r it).source = it.source := by
  by_cases h : evaluateRuleCondition it r.condition <;> simp [applyRuleToItem, h]

theorem itemRulesFold_entry :
    ∀ (rules : List CustomRule) (en : List String) (it : Item),
      (itemRulesFold rules en it).entry = it.entry
  | [], _, _ => rfl
  | r :: rs, en, it => by
    have hstep : itemRulesFold (r :: rs) en it =
        itemRulesFold rs en (if en.contains r.name then applyRuleToItem r it else it) := rfl
    rw [hstep, itemRulesFold_entry rs en _]
    by_cases h : en.contains r.name
    · rw [if_pos h, applyRuleToItem_entry]
    · rw [if_neg h]

theorem itemRulesFold_action :
    ∀ (rules : List CustomRule) (en : List String) (it : Item),
      (itemRulesFold rules en it).action = it.action
  | [], _, _ => rfl
  | r :: rs, en, it => by
    have hstep : itemRulesFold (r :: rs) en it =
        itemRulesFold rs en (if en.contains r.name then applyRuleToItem r it else it) := rfl
    rw [hstep, itemRulesFold_action rs en _]
    by_cases h : en.contains r.name
    · rw [if_pos h, applyRuleToItem_action]
    · rw [if_neg h]

theorem itemRulesFold_source :
    ∀ (rules : List CustomRule) (en : List String) (it : Item),
      (itemRulesFold rules en it).source = it.source
  | [], _, _ => rfl
  | r :: rs, en, it => by
    have hstep : itemRulesFold (r :: rs) en it =
        itemRulesFold rs en (if en.contains r.name then applyRuleToItem r it else it) := rfl
    rw [hstep, itemRulesFold_source rs en _]
    by_cases h : en.contains r.name
    · rw [if_pos h, applyRuleToItem_source]
    · rw [if_neg h]

/-! ### Executor lemmas -/

theorem executePlan_nil (fs : Fs) : executePlan fs [] = (emptyResults, fs) :=
  rfl

theorem executePlan_cons_ok (fs fs2 : Fs) (it : Item) (rest : List Item)
    (h : moveFile fs it.source it.target = .ok fs2) :
    (executePlan fs (it :: rest)).1.moved =
        mkMoved it :: (executePlan fs2 rest).1.moved ∧
      (executePlan fs (it :: rest)).1.errors = (executePlan fs2 rest).1.errors ∧
      (executePlan fs (it :: rest)).2 = (executePlan fs2 rest).2 := by
  simp [executePlan, h]

theorem executePlan_cons_error (fs : Fs) (it : Item) (rest : List Item) (msg : String)
    (h : moveFile fs it.source it.target = .error msg) :
    (executePlan fs (it :: rest)).1.moved = (executePlan fs rest).1.moved ∧
      (executePlan fs (it :: rest)).1.errors =
        mkMoveError it msg :: (executePlan fs rest).1.errors ∧
      (executePlan fs (it :: rest)).2 = (executePlan fs rest).2 := by
  simp [executePlan, h]

theorem executePlan_length :
    ∀ (plan : List Item) (fs : Fs),
      (executePlan fs plan).1.moved.length + (executePlan fs plan).1.errors.length =
        plan.length
  | [], fs => rfl
  | it :: rest, fs => by
    cases hmv : moveFile fs it.source it.target with
    | ok fs2 =>
      obtain ⟨h1, h2, -⟩ := executePlan_cons_ok fs fs2 it rest hmv
      rw [h1, h2]
      simp only [List.length_cons]
      have := executePlan_length rest fs2
      omega
    | error msg =>
      obtain ⟨h1, h2, -⟩ := executePlan_cons_error fs it rest msg hmv
      rw [h1, h2]
      simp only [List.length_cons]
      have := executePlan_length rest fs
      omega

theorem executePlan_errors_mem :
    ∀ (plan : List Item) (fs : Fs) (e : String),
      e ∈ (executePlan fs plan).1.errors →
      ∃ it ∈ plan, ∃ msg, e = mkMoveError it msg
  | [], fs, e, he => by simp [executePlan_nil, emptyResults] at he
  | it :: rest, fs, e, he => by
    cases hmv : moveFile fs it.source it.target with
    | ok fs2 =>
      rw [(executePlan_cons_ok fs fs2 it rest hmv).2.1] at he
      obtain ⟨it2, h2, hmsg⟩ := executePlan_errors_mem rest fs2 e he
      exact ⟨it2, by simp [h2], hmsg⟩
    | error msg =>
      rw [(executePlan_cons_error fs it rest msg hmv).2.1] at he
      rcases List.mem_cons.mp he with rfl | he
      · exact ⟨it, by simp, msg, rfl⟩
      · obtain ⟨it2, h2, hmsg⟩ := executePlan_errors_mem rest fs e he
        exact ⟨it2, by simp [h2], hmsg⟩

theorem executePlan_moved_mem :
    ∀ (plan : List Item) (fs : Fs) (m : MovedRecord),
      m ∈ (executePlan fs plan).1.moved →
      ∃ it ∈ plan, m = mkMoved it
  | [], fs, m, hm => by simp [executePlan_nil, emptyResults] at hm
  | it :: rest, fs, m, hm => by
    cases hmv : moveFile fs it.source it.target with
    | ok fs2 =>
      rw [(executePlan_cons_ok fs fs2 it rest hmv).1] at hm
      rcases List.mem_cons.mp hm with rfl | hm
      · exact ⟨it, by simp, rfl⟩
      · obtain ⟨it2, h2, heq⟩ := executePlan_moved_mem rest fs2 m hm
        exact ⟨it2, by simp [h2], heq⟩
    | error msg =>
      rw [(executePlan_cons_error fs it rest msg hmv).1] at hm
      obtain ⟨it2, h2, heq⟩ := executePlan_moved_mem rest fs m hm
      exact ⟨it2, by simp [h2], heq⟩

/-! ### Substring and split lemmas (rule-condition parsing) -/

theorem takeWhile_append_all {α : Type} (p : α → Bool) :
    ∀ a b : List α, (∀ x ∈ a, p x = true) → (a ++ b).takeWhile p = a ++ b.takeWhile p
  | [], b, _ => rfl
  | x :: a, b, h => by
    have hx : p x = true := h x (by simp)
    simp [List.takeWhile, hx, takeWhile_append_all p a b (fun y hy => h y (by simp [hy]))]

theorem isPrefixOf_iff_exists :
    ∀ p s : List Char, p.isPrefixOf s = true ↔ ∃ t, s = p ++ t
  | [], s => by
    simp [List.isPrefixOf]
  | a :: p, [] => by
    simp [List.isPrefixOf]
  | a :: p, b :: s => by
    simp only [List.isPrefixOf, Bool.and_eq_true, beq_iff_eq]
    constructor
    · rintro ⟨rfl, hp⟩
      obtain ⟨t, rfl⟩ := (isPrefixOf_iff_exists p s).mp hp
      exact ⟨t, rfl⟩
    · rintro ⟨t, ht⟩
      obtain ⟨rfl, rfl⟩ := List.cons.injEq b s a (p ++ t) ▸ ht
      exact ⟨rfl, (isPrefixOf_iff_exists p (p ++ t)).mpr ⟨t, rfl⟩⟩

theorem isPrefixOf_append_self (p t : List Char) : p.isPrefixOf (p ++ t) = true :=
  (isPrefixOf_iff_exists p (p ++ t)).mpr ⟨t, rfl⟩

theorem containsSub_iff_exists :
    ∀ s p : List Char, containsSub p s = true ↔ ∃ a b, s = a ++ p ++ b
  | [], p => by
    simp only [containsSub, List.isEmpty_iff]
    constructor
    · rintro rfl
      exact ⟨[], [], rfl⟩
    · rintro ⟨a, b, hab⟩
      rcases List.append_eq_nil.mp (List.append_eq_nil.mp hab.symm).1 with ⟨-, h2⟩
      exact h2
  | c :: r, p => by
    simp only [containsSub, Bool.or_eq_true]
    constructor
    · rintro (hpre | hrec)
      · obtain ⟨t, ht⟩ := (isPrefixOf_iff_exists p (c :: r)).mp hpre
        exact ⟨[], t, by simp [ht]⟩
      · obtain ⟨a, b, hab⟩ := (containsSub_iff_exists r p).mp hrec
        exact ⟨c :: a, b, by simp [hab]⟩
    · rintro ⟨a, b, hab⟩
      cases a with
      | nil =>
        left
        exact (isPrefixOf_iff_exists p (c :: r)).mpr ⟨b, by simpa using hab⟩
      | cons a0 a' =>
        right
        apply (containsSub_iff_exists r p).mpr
        refine ⟨a', b, ?_⟩
        have : c :: r = a0 :: (a' ++ p ++ b) := by simpa using hab
        exact (List.cons.injEq _ _ _ _ ▸ this).2

theorem containsSub_eq_false_of_not_mem (p s : List Char) (ch : Char)
    (hp : ch ∈ p) (hs : ch ∉ s) : containsSub p s = false := by
  cases hcs : containsSub p s with
  | false => rfl
  | true =>
    obtain ⟨a, b, rfl⟩ := (containsSub_iff_exists s p).mp hcs
    exact absurd (by simp [hp]) hs

theorem containsSub_nil_left : ∀ s : List Char, containsSub [] s = true
  | [] => rfl
  | c :: r => by simp [containsSub, List.isPrefixOf]

theorem containsSub_append_self (p t : List Char) : containsSub p (p ++ t) = true := by
  cases p with
  | nil => exact containsSub_nil_left t
  | cons c p' =>
    simp only [List.cons_append, containsSub, Bool.or_eq_true]
    left
    exact isPrefixOf_append_self (c :: p') t

theorem splitSubGo_no_occur (sep : List Char) :
    ∀ (s : List Char) (fuel : Nat) (acc : List Char), s.length < fuel →
      containsSub sep s = false →
      splitSubGo sep fuel s acc = [acc.reverse ++ s]
  | [], fuel, acc, hf, _ => by
    cases fuel with
    | zero => omega
    | succ f => simp [splitSubGo]
  | c :: rest, fuel, acc, hf, hno => by
    cases fuel with
    | zero => omega
    | succ f =>
      simp only [containsSub, Bool.or_eq_false_iff] at hno
      rw [splitSubGo]
      simp only [hno.1, Bool.false_eq_true, if_false]
      rw [splitSubGo_no_occur sep rest f (c :: acc) (by simpa using hf) hno.2]
      simp

theorem splitSubGo_head_sep (sep : List Char) (hsep : sep ≠ []) (rest : List Char)
    (fuel : Nat) :
    splitSubGo sep (fuel + 1) (sep ++ rest) [] = [] :: splitSubGo sep fuel rest [] := by
  cases sep with
  | nil => exact absurd rfl hsep
  | cons c sep' =>
    rw [List.cons_append, splitSubGo]
    rw [show ((c :: sep').isPrefixOf (c :: (sep' ++ rest))) = true from
      isPrefixOf_append_self (c :: sep') rest]
    simp only [if_true, List.reverse_nil]
    rw [show (c :: sep').length - 1 = sep'.length from rfl, List.drop_left]

/-! ### Classifier characterisation lemmas -/

theorem findCategory_eq_find? :
    ∀ (cats : List Category) (enabled : List String) (ext : String),
      findCategory cats enabled ext =
        (cats.find? (fun c => enabled.contains c.name && c.extensions.contains ext)).map
          (fun c => c.folderName)
  | [], _, _ => rfl
  | c :: rest, enabled, ext => by
    by_cases h1 : c.name ∈ enabled
    · by_cases h2 : ext ∈ c.extensions
      · simp [findCategory, h1, h2, List.find?]
      · simp [findCategory, h1, h2, List.find?, findCategory_eq_find? rest enabled ext]
    · simp [findCategory, h1, List.find?, findCategory_eq_find? rest enabled ext]

theorem findSizeCategory_eq_find? :
    ∀ (sizeCats : List (String × Nat)) (sz : Nat),
      findSizeCategory sizeCats sz =
        (((sizeCats.find? (fun p => sz ≤ p.2)).map (fun p => p.1)).getD "Others")
  | [], _ => rfl
  | (cat, mx) :: rest, sz => by
    by_cases h : sz ≤ mx
    · simp [findSizeCategory, h, List.find?]
    · simp [findSizeCategory, h, List.find?, findSizeCategory_eq_find? rest sz]

/-! ### `filename_contains` parsing lemmas -/

theorem quoteS_data : quoteS.data = [quoteChar] :=
  rfl

theorem pySplit_filename_contains (tail : List Char)
    (hno : containsSub "filename_contains(".data tail = false) :
    pySplit ⟨"filename_contains(".data ++ tail⟩ "filename_contains(" =
      [⟨[]⟩, ⟨tail⟩] := by
  unfold pySplit
  rw [show ((⟨"filename_contains(".data ++ tail⟩ : String)).data =
    "filename_contains(".data ++ tail from rfl]
  rw [show ("filename_contains(".data ++ tail).length + 1 =
    ("filename_contains(".data.length + tail.length) + 1 from by
      simp only [List.length_append]]
  rw [splitSubGo_head_sep _ (by decide) tail ("filename_contains(".data.length + tail.length)]
  have hlt : tail.length < "filename_contains(".data.length + tail.length := by
    have h18 : "filename_contains(".data.length = 18 := by decide
    omega
  rw [splitSubGo_no_occur _ tail _ [] hlt hno]
  simp

theorem pyStripChar_quote_form (kdata : List Char) (hne : kdata ≠ [])
    (hq : quoteChar ∉ kdata) :
    pyStripChar quoteChar ⟨quoteChar :: (kdata ++ [quoteChar, ')'])⟩ =
      ⟨kdata ++ [quoteChar, ')']⟩ := by
  unfold pyStripChar
  apply strEq_of_data
  rw [show ((⟨quoteChar :: (kdata ++ [quoteChar, ')'])⟩ : String)).data =
    quoteChar :: (kdata ++ [quoteChar, ')']) from rfl]
  rw [show ((⟨kdata ++ [quoteChar, ')']⟩ : String)).data =
    kdata ++ [quoteChar, ')'] from rfl]
  have hd1 : (quoteChar :: (kdata ++ [quoteChar, ')'])).dropWhile (· = quoteChar) =
      kdata ++ [quoteChar, ')'] := by
    rw [show (quoteChar :: (kdata ++ [quoteChar, ')'])).dropWhile (· = quoteChar) =
        (kdata ++ [quoteChar, ')']).dropWhile (· = quoteChar) from
      List.dropWhile_cons_of_pos (by simp)]
    cases kdata with
    | nil => exact absurd rfl hne
    | cons k0 kr =>
      rw [List.cons_append]
      apply dropWhile_cons_stop
      have hk0 : k0 ≠ quoteChar := fun heq => hq (heq ▸ List.mem_cons_self k0 kr)
      simp [hk0]
  rw [hd1]
  rw [show (kdata ++ [quoteChar, ')']).reverse = ')' :: quoteChar :: kdata.reverse from by
    simp]
  rw [dropWhile_cons_stop _ _ (by decide)]
  rw [show (')' : Char) :: quoteChar :: kdata.reverse =
    (kdata ++ [quoteChar, ')']).reverse from by simp]
  rw [List.reverse_reverse]

theorem takeUntilParen_quote_form (kdata : List Char) (hp : ')' ∉ kdata) :
    takeUntilParen ⟨kdata ++ [quoteChar, ')']⟩ = ⟨kdata ++ [quoteChar]⟩ := by
  unfold takeUntilParen
  apply strEq_of_data
  rw [show ((⟨kdata ++ [quoteChar, ')']⟩ : String)).data =
    kdata ++ [quoteChar, ')'] from rfl]
  rw [show ((⟨kdata ++ [quoteChar]⟩ : String)).data = kdata ++ [quoteChar] from rfl]
  rw [takeWhile_append_all]
  · rw [show ([quoteChar, ')']).takeWhile (fun x => x ≠ ')') = [quoteChar] from by decide]
  · intro x hx
    simp only [ne_eq, decide_not, Bool.not_eq_true', decide_eq_false_iff_not]
    intro heq
    exact hp (heq ▸ hx)

theorem evaluateRuleCondition_filename_single (kw : String) (it : Item)
    (h0 : kw ≠ "")
    (h1 : quoteChar ∉ kw.data)
    (h2 : ')' ∉ kw.data)
    (h3 : '(' ∉ kw.data)
    (hext : strContains ("filename_contains(" ++ quoteS ++ kw ++ quoteS ++ ")")
      "extension ==" = false) :
    evaluateRuleCondition it ("filename_contains(" ++ quoteS ++ kw ++ quoteS ++ ")") =
      strContains (pyLower it.entry.name) (pyLower (kw ++ quoteS)) := by
  have hdata : ("filename_contains(" ++ quoteS ++ kw ++ quoteS ++ ")").data =
      "filename_contains(".data ++ (quoteChar :: (kw.data ++ [quoteChar, ')'])) := by
    simp [quoteS_data, List.append_assoc]
  have hcontains_fc :
      strContains ("filename_contains(" ++ quoteS ++ kw ++ quoteS ++ ")")
        "filename_contains" = true := by
    unfold strContains
    rw [hdata]
    rw [show "filename_contains(".data ++ (quoteChar :: (kw.data ++ [quoteChar, ')'])) =
        "filename_contains".data ++ ('(' :: quoteChar :: (kw.data ++ [quoteChar, ')'])) from by
      rw [show "filename_contains(".data = "filename_contains".data ++ ['('] from by decide]
      simp [List.append_assoc]]
    exact containsSub_append_self _ _
  have hno : containsSub "filename_contains(".data
      (quoteChar :: (kw.data ++ [quoteChar, ')'])) = false := by
    apply containsSub_eq_false_of_not_mem _ _ '(' (by decide)
    intro hmem
    have : '(' ∈ kw.data := by
      simpa [List.mem_cons, List.mem_append,
        show ¬('(' = quoteChar) from by decide,
        show ¬('(' = ')') from by decide] using hmem
    exact h3 this
  have hkne : kw.data ≠ [] := fun hkd => absurd ((strEq_empty_iff kw).mpr hkd) h0
  have hcondmk : ("filename_contains(" ++ quoteS ++ kw ++ quoteS ++ ")") =
      ⟨"filename_contains(".data ++ (quoteChar :: (kw.data ++ [quoteChar, ')']))⟩ :=
    strEq_of_data hdata
  have hlowkw : (kw ++ quoteS) = ⟨kw.data ++ [quoteChar]⟩ :=
    strEq_of_data (by simp [quoteS_data])
  simp only [evaluateRuleCondition]
  rw [hext]
  simp only [Bool.false_and]
  rw [if_neg (by simp)]
  rw [if_pos hcontains_fc]
  rw [hcondmk, pySplit_filename_contains _ hno]
  simp only [List.drop_succ_cons, List.drop_zero, List.map_cons, List.map_nil]
  rw [pyStripChar_quote_form kw.data hkne h1, takeUntilParen_quote_form kw.data h2]
  simp only [List.any_cons, List.any_nil, Bool.or_false]
  rw [hlowkw]

/-! ### Shared concrete fixtures for witnesses and counterexamples -/

/-- A one-category, one-profile configuration. -/
def wCfg : Config :=
  ⟨[⟨"Documents", ["txt"], "Documents"⟩], [], [], [⟨"default", ["Documents"], []⟩], []⟩

/-- A directory `base` containing the single regular file `base/a.txt`. -/
def wFs : Fs :=
  [⟨"base", false, 0, 0, ""⟩, ⟨"base/a.txt", true, 5, 0, ""⟩]

/-- A plan item as the type classifier produces it for `base/a.txt`. -/
def ruleItem : Item :=
  ⟨⟨"a.txt", 5, 0, ""⟩, "move", "base/a.txt", "base/Documents/a.txt", "Documents",
    "File type: txt"⟩

/-- The custom rule `extension == 'txt'` targeting `Archive`. -/
def extRule : CustomRule :=
  ⟨"r1", "extension == \x27txt\x27", "Archive"⟩

/-- A plan item whose computed target basename is `report.txt`. -/
def dupItem : Item :=
  ⟨⟨"report.txt", 1, 0, ""⟩, "move", "base/report.txt", "base/Docs/report.txt", "Docs",
    "classified"⟩

/-- A plan item whose computed target basename is `a.txt`. -/
def dupA : Item :=
  ⟨⟨"a.txt", 1, 0, ""⟩, "move", "base/a.txt", "base/Docs/a.txt", "Docs", "classified"⟩

/-- A plan item whose computed target basename is `a(2).txt`. -/
def dupA2 : Item :=
  ⟨⟨"a(2).txt", 1, 0, ""⟩, "move", "base/a(2).txt", "base/Docs/a(2).txt", "Docs", "classified"⟩

/-! ### Claim C1 -/

/-- Modelled from the spec: what claim C1 says the dry run returns — the
computed plan itself, as a preview structure.  The source instead returns
the freshly initialised empty results dict and only prints the plan. -/
def specClaimedDryRunPreview (plan : List Item) : List Item :=
  plan

/-- C1 counterexample: two dry runs whose computed plans differ (an
enabled profile moves `a.txt` to `Documents`, an unknown profile to
`Others`) return the *same* empty results structure, so the returned
value is not the computed plan — it contains no plan item at all even
though the plan is non-empty. -/
theorem C1_counterexample :
    organizeFolder wCfg "base" "type" "default" true wFs = .ok (emptyResults, wFs) ∧
    organizeFolder wCfg "base" "type" "other" true wFs = .ok (emptyResults, wFs) ∧
    organizePlan wCfg "base" "type" "default" wFs =
      .ok (specClaimedDryRunPreview
        [⟨⟨"a.txt", 5, 0, ""⟩, "move", "base/a.txt", "base/Documents/a.txt", "Documents",
          "File type: txt"⟩]) ∧
    organizePlan wCfg "base" "type" "other" wFs =
      .ok (specClaimedDryRunPreview
        [⟨⟨"a.txt", 5, 0, ""⟩, "move", "base/a.txt", "base/Others/a.txt", "Others",
          "Uncategorized file type"⟩]) ∧
    ([⟨⟨"a.txt", 5, 0, ""⟩, "move", "base/a.txt", "base/Documents/a.txt", "Documents",
        "File type: txt"⟩] : List Item) ≠
      [⟨⟨"a.txt", 5, 0, ""⟩, "move", "base/a.txt", "base/Others/a.txt", "Others",
        "Uncategorized file type"⟩] ∧
    emptyResults.moved = [] ∧ emptyResults.errors = [] := by
  exact ⟨rfl, rfl, rfl, rfl, by decide, rfl, rfl⟩

/-- C1: (amended) for every configuration, directory, valid mode and
profile, a dry run performs no filesystem mutation — the filesystem
comes back unchanged — and returns the empty results structure; the
computed plan is only displayed, not returned. -/
theorem C1_dry_run_no_mutation_empty_result
    (cfg : Config) (basePath profileName : String) (fs : Fs) (mode : String)
    (hdir : dirExists fs basePath = true)
    (hmode : mode = "type" ∨ mode = "size" ∨ mode = "date" ∨ mode = "content") :
    ∃ plan, organizePlan cfg basePath mode profileName fs = .ok plan ∧
      organizeFolder cfg basePath mode profileName true fs = .ok (emptyResults, fs) := by
  have hplan : ∃ plan, organizePlan cfg basePath mode profileName fs = .ok plan := by
    rcases hmode with rfl | rfl | rfl | rfl <;>
      exact ⟨_, by unfold organizePlan; rw [hdir]; rfl⟩
  obtain ⟨plan, hp⟩ := hplan
  refine ⟨plan, hp, ?_⟩
  unfold organizeFolder
  rw [hp]
  rfl

/-- C1 witness: the amended theorem applied to the concrete directory. -/
theorem C1_witness :
    dirExists wFs "base" = true ∧
    ∃ plan, organizePlan wCfg "base" "type" "default" wFs = .ok plan ∧
      organizeFolder wCfg "base" "type" "default" true wFs = .ok (emptyResults, wFs) :=
  ⟨by decide, C1_dry_run_no_mutation_empty_result wCfg "base" "default" wFs "type"
    (by decide) (Or.inl rfl)⟩

/-! ### Claim C2 -/

/-- C2 counterexample: three plan items all targeting `report.txt` come
out as `report.txt`, `report(2).txt`, `report(3).txt` — the second
occurrence gets suffix `(2)`, not the claimed `(1)` (and the third `(3)`,
not `(2)`): the stored count after the first occurrence is 1, and the
suffix starts at stored count + 1. -/
theorem C2_counterexample :
    (handleDuplicates [dupItem, dupItem, dupItem]).map (fun it => pathBase it.target) =
      ["report.txt", "report(2).txt", "report(3).txt"] ∧
    (handleDuplicates [dupItem, dupItem, dupItem]).map (fun it => pathBase it.target) ≠
      ["report.txt", "report(1).txt", "report(2).txt"] := by
  exact ⟨by decide, by decide⟩

/-- C2: (amended) when every item of the plan has the same target
basename `b`, the first occurrence keeps its name unchanged and the
`i`-th item (`i ≥ 1`) is renamed inside its target directory to
`stem(i+1)ext` — i.e. the numeric suffix starts at 2 for the second
occurrence and increments by one per further occurrence. -/
theorem C2_uniform_collision_numbering
    (plan : List Item) (b : String)
    (hall : ∀ it ∈ plan, pathBase it.target = b) :
    ∀ i it, plan[i]? = some it →
      (handleDuplicates plan)[i]? = some (if i = 0 then it
        else setTargetName it (mkSuffixed (splitextS b).1 (i + 1) (splitextS b).2)) := by
  intro i it hit
  cases plan with
  | nil => simp at hit
  | cons p rest =>
    have hpb : pathBase p.target = b := hall p (by simp)
    have hnone : dictLookup [] (pathBase p.target) = none := rfl
    rw [handleDuplicates, handleDupGo_cons_none [] p rest hnone]
    cases i with
    | zero =>
      rw [List.getElem?_cons_zero] at hit
      rw [List.getElem?_cons_zero, if_pos rfl]
      exact congrArg some (Option.some.inj hit)
    | succ m =>
      rw [List.getElem?_cons_succ] at hit
      rw [List.getElem?_cons_succ, if_neg (by omega)]
      have hres := handleDupGo_uniform rest (dictSet [] (pathBase p.target) 1) 1 b
        (by
          intro q hq
          rcases List.mem_cons.mp hq with rfl | hq
          · exact hpb
          · simp at hq)
        (by rw [dictLookup_set, if_pos hpb])
        (fun it2 h2 => hall it2 (by simp [h2]))
        m it hit
      rw [show m + 1 + 1 = 1 + 1 + m from by omega]
      exact hres

/-- C2 witness: the amended theorem applied to the three-way collision on
`report.txt`, showing the second occurrence becomes `report(2).txt`. -/
theorem C2_witness :
    (handleDuplicates [dupItem, dupItem, dupItem])[1]? =
      some (setTargetName dupItem
        (mkSuffixed (splitextS "report.txt").1 2 (splitextS "report.txt").2)) :=
  C2_uniform_collision_numbering [dupItem, dupItem, dupItem] "report.txt" (by decide)
    1 dupItem (by decide)

/-! ### Claim C3 -/

/-- Modelled from the spec: the target path claim C3 asserts — the file's
basename directly under the rule's declared target category folder within
the base directory. -/
def specClaimedRuleTarget (basePath ruleTarget fileName : String) : String :=
  pathJoin (pathJoin basePath ruleTarget) fileName

/-- C3 counterexample: a matching rule with target `Archive` rewrites the
item's target to `base/Documents/Archive/a.txt` — nested under the item's
*previous* target folder — not to the claimed `base/Archive/a.txt`
directly under the base directory. -/
theorem C3_counterexample :
    (applyCustomRules [ruleItem] [extRule] ["r1"]).map (fun it => it.target) =
      ["base/Documents/Archive/a.txt"] ∧
    (applyCustomRules [ruleItem] [extRule] ["r1"]).map (fun it => it.category) =
      ["Archive"] ∧
    (applyCustomRules [ruleItem] [extRule] ["r1"]).map (fun it => it.reason) =
      ["Custom rule: r1"] ∧
    specClaimedRuleTarget "base" "Archive" "a.txt" = "base/Archive/a.txt" ∧
    ("base/Documents/Archive/a.txt" : String) ≠ "base/Archive/a.txt" := by
  exact ⟨by decide, by decide, by decide, by decide, by decide⟩

/-- C3: (amended) for every enabled rule and plan, rule application maps
each item independently; an item satisfying the rule's condition gets its
category overwritten with the rule's target, its reason set to
`Custom rule: <name>`, and its target path recomputed as
`<previous target's parent>/<rule target>/<basename>` — the rule's folder
is nested under the item's previous target directory, not placed directly
under the base directory. -/
theorem C3_rule_rewrite_nested
    (r : CustomRule) (enabled : List String) (plan : List Item)
    (hen : enabled.contains r.name = true) :
    applyCustomRules plan [r] enabled = plan.map (applyRuleToItem r) ∧
    ∀ it, evaluateRuleCondition it r.condition = true →
      applyRuleToItem r it =
        { it with
            target := pathJoin (pathJoin (pathParent it.target) r.target) (pathBase it.target)
            category := r.target
            reason := "Custom rule: " ++ r.name } := by
  constructor
  · rw [show applyCustomRules plan [r] enabled =
      (if enabled.contains r.name then plan.map (applyRuleToItem r) else plan) from rfl,
      if_pos hen]
  · intro it hcond
    unfold applyRuleToItem
    rw [if_pos hcond]

/-- C3 witness: the amended theorem applied to the concrete rule and
item, showing the nested rewrite. -/
theorem C3_witness :
    applyRuleToItem extRule ruleItem =
      { ruleItem with
          target := pathJoin (pathJoin (pathParent ruleItem.target) extRule.target)
            (pathBase ruleItem.target)
          category := extRule.target
          reason := "Custom rule: " ++ extRule.name } :=
  (C3_rule_rewrite_nested extRule ["r1"] [ruleItem] (by decide)).2 ruleItem (by decide)

/-! ### Claim C4 -/

/-- A file named `report.txt` classified to `Others`. -/
def kwItem : Item :=
  ⟨⟨"report.txt", 10, 0, ""⟩, "move", "base/report.txt", "base/Others/report.txt", "Others",
    "Uncategorized file type"⟩

/-- C4 counterexample: the filename `report.txt` case-insensitively
contains the listed keyword (`report`, resp. `rep`), yet the condition
evaluates to `false` — the extracted comparison string keeps the closing
quote (`report'`) and, for several keywords, the whole inner text — so
the claimed "true iff the filename contains at least one listed keyword"
fails in both directions of usage. -/
theorem C4_counterexample :
    strContains (pyLower kwItem.entry.name) (pyLower "report") = true ∧
    evaluateRuleCondition kwItem "filename_contains(\x27report\x27)" = false ∧
    strContains (pyLower kwItem.entry.name) (pyLower "rep") = true ∧
    evaluateRuleCondition kwItem "filename_contains(\x27inv\x27, \x27rep\x27)" = false := by
  exact ⟨by decide, by decide, by decide, by decide⟩

/-- C4: (amended) for a single-keyword condition
`filename_contains('<kw>')` (keyword free of quotes and parentheses and
not embedding the `extension ==` operator), evaluation returns true if
and only if the lower-cased filename contains the lower-cased keyword
*followed by a closing single quote* — the parser strips only leading
quotes and cuts at the first `)`, so the trailing quote stays in the
compared string; for several keywords the entire inner text is treated as
one such string, so containment of an individual listed keyword does not
suffice. -/
theorem C4_filename_contains_semantics (kw : String) (it : Item)
    (h0 : kw ≠ "")
    (h1 : quoteChar ∉ kw.data)
    (h2 : ')' ∉ kw.data)
    (h3 : '(' ∉ kw.data)
    (hext : strContains ("filename_contains(" ++ quoteS ++ kw ++ quoteS ++ ")")
      "extension ==" = false) :
    evaluateRuleCondition it ("filename_contains(" ++ quoteS ++ kw ++ quoteS ++ ")") =
      strContains (pyLower it.entry.name) (pyLower (kw ++ quoteS)) :=
  evaluateRuleCondition_filename_single kw it h0 h1 h2 h3 hext

/-- C4 witness: the amended theorem applied to the keyword `report` and
the file `report.txt`. -/
theorem C4_witness :
    evaluateRuleCondition kwItem ("filename_contains(" ++ quoteS ++ "report" ++ quoteS ++ ")") =
      strContains (pyLower kwItem.entry.name) (pyLower ("report" ++ quoteS)) :=
  C4_filename_contains_semantics "report" kwItem (by decide) (by decide) (by decide)
    (by decide) (by decide)

/-! ### Claim C5 -/

/-- C5 counterexample: the resolver tracks only *original* basenames, so
the suffixed name generated for the second `a.txt` (namely `a(2).txt`)
is assigned again to a later item whose original basename is `a(2).txt` —
after resolution two plan items share the target basename `a(2).txt`. -/
theorem C5_counterexample :
    (handleDuplicates [dupA, dupA, dupA2]).map (fun it => pathBase it.target) =
      ["a.txt", "a(2).txt", "a(2).txt"] ∧
    ¬ ((handleDuplicates [dupA, dupA, dupA2]).map (fun it => pathBase it.target)).Nodup := by
  exact ⟨by decide, by decide⟩

/-- C5: (amended) suffix counters per original basename increase strictly
within the run, so any two plan items that share the same *original*
target basename receive distinct resolved basenames; plan-wide
uniqueness, however, does not hold, because a generated suffixed name is
not recorded and can coincide with a later item's original basename. -/
theorem C5_same_name_distinct
    (plan : List Item) (i j : Nat) (iti itj ri rj : Item)
    (hij : i < j)
    (hi : plan[i]? = some iti) (hj : plan[j]? = some itj)
    (hb : pathBase iti.target = pathBase itj.target)
    (hri : (handleDuplicates plan)[i]? = some ri)
    (hrj : (handleDuplicates plan)[j]? = some rj) :
    pathBase ri.target ≠ pathBase rj.target :=
  handleDupGo_distinct plan [] i j iti itj ri rj hij hi hj hb hri hrj

/-- C5 witness: the amended theorem applied to two items colliding on
`a.txt`, whose resolved basenames `a.txt` and `a(2).txt` differ. -/
theorem C5_witness :
    pathBase dupA.target ≠
      pathBase (setTargetName dupA (mkSuffixed "a" 2 ".txt")).target :=
  C5_same_name_distinct [dupA, dupA] 0 1 dupA dupA dupA
    (setTargetName dupA (mkSuffixed "a" 2 ".txt"))
    (by omega) (by decide) (by decide) rfl (by decide) (by decide)

/-! ### Claim C6 -/

/-- Category `A` (declared first in the configuration). -/
def catA : Category := ⟨"A", ["jpg"], "FolderA"⟩

/-- Category `B` (declared second in the configuration). -/
def catB : Category := ⟨"B", ["jpg"], "FolderB"⟩

/-- Modelled from the spec: what claim C6 asserts — walk the *enabled*
category names in profile-declared order and assign the first whose
extension set contains the extension (unknown names skipped). -/
def specProfileOrderCategory (cats : List Category) : List String → String → Option String
  | [], _ => none
  | n :: rest, ext =>
    match cats.find? (fun c => c.name == n) with
    | some c =>
      if c.extensions.contains ext then some c.folderName
      else specProfileOrderCategory cats rest ext
    | none => specProfileOrderCategory cats rest ext

/-- C6 counterexample: with configuration order `[A, B]` and profile
order `[B, A]`, both matching `jpg`, the code assigns `A`'s folder
(configuration order) while the claimed profile-declared walk yields
`B`'s folder. -/
theorem C6_counterexample :
    (organizeByType [⟨"x.jpg", 1, 0, ""⟩] "base" [catA, catB] ["B", "A"]).map
      (fun it => it.category) = ["FolderA"] ∧
    specProfileOrderCategory [catA, catB] ["B", "A"] "jpg" = some "FolderB" ∧
    ("FolderA" : String) ≠ "FolderB" := by
  exact ⟨by decide, by decide, by decide⟩

/-- C6: (amended) classification by type walks the *configuration's*
categories in configuration-declared order, considering only those whose
name the profile enables, and assigns the first considered category whose
extension list contains the file's extension (lower-cased, no leading
dot), with category the entry's folder name and reason
`File type: <ext>`; a file matching no considered category gets category
`Others` with reason `Uncategorized file type`. -/
theorem C6_type_classification
    (cats : List Category) (enabled : List String) (files : List FileEntry)
    (basePath : String) :
    organizeByType files basePath cats enabled = files.map (typeItem basePath cats enabled) ∧
    (∀ ext, findCategory cats enabled ext =
      (cats.find? (fun c => enabled.contains c.name && c.extensions.contains ext)).map
        (fun c => c.folderName)) ∧
    (∀ (e : FileEntry) (folder : String),
      findCategory cats enabled (fileExtOfName e.name) = some folder →
      typeItem basePath cats enabled e =
        ⟨e, "move", pathJoin basePath e.name, pathJoin (pathJoin basePath folder) e.name,
          folder, "File type: " ++ fileExtOfName e.name⟩) ∧
    (∀ e : FileEntry, findCategory cats enabled (fileExtOfName e.name) = none →
      typeItem basePath cats enabled e =
        ⟨e, "move", pathJoin basePath e.name, pathJoin (pathJoin basePath "Others") e.name,
          "Others", "Uncategorized file type"⟩) := by
  refine ⟨rfl, findCategory_eq_find? cats enabled, ?_, ?_⟩
  · intro e folder hf
    simp only [typeItem, hf]
  · intro e hf
    simp only [typeItem, hf]

/-- The `Images` category of the spec's concrete example. -/
def catImages : Category := ⟨"Images", ["jpg", "png"], "Images"⟩

/-- C6 witness: the amended theorem applied to the spec's example — a
`jpg` file under enabled `Images: [jpg, png]` gets category `Images` with
reason `File type: jpg`. -/
theorem C6_witness :
    typeItem "base" [catImages] ["Images"] ⟨"photo.jpg", 1, 0, ""⟩ =
      ⟨⟨"photo.jpg", 1, 0, ""⟩, "move", pathJoin "base" "photo.jpg",
        pathJoin (pathJoin "base" "Images") "photo.jpg", "Images",
        "File type: " ++ fileExtOfName "photo.jpg"⟩ :=
  (C6_type_classification [catImages] ["Images"] [] "base").2.2.1
    ⟨"photo.jpg", 1, 0, ""⟩ "Images" (by decide)

/-! ### Claim C7 -/

/-- C7: classification by size walks the declared size thresholds in
order and assigns the first category whose inclusive threshold the file's
byte length does not exceed — a file of exactly `max_size` bytes belongs
to that threshold's category, not the next one — and assigns `Others`
when no threshold matches. -/
theorem C7_size_classification
    (files : List FileEntry) (basePath : String) (sizeCats : List (String × Nat)) :
    organizeBySize files basePath sizeCats = files.map (sizeItem basePath sizeCats) ∧
    (∀ sz, findSizeCategory sizeCats sz =
      (((sizeCats.find? (fun p => sz ≤ p.2)).map (fun p => p.1)).getD "Others")) ∧
    (∀ e : FileEntry, (sizeItem basePath sizeCats e).category =
      findSizeCategory sizeCats e.size) ∧
    (∀ (cat : String) (rest : List (String × Nat)) (sz : Nat),
      findSizeCategory ((cat, sz) :: rest) sz = cat) ∧
    (∀ sz, (∀ p ∈ sizeCats, ¬ (sz ≤ p.2)) → findSizeCategory sizeCats sz = "Others") := by
  refine ⟨rfl, findSizeCategory_eq_find? sizeCats, fun e => rfl, ?_, ?_⟩
  · intro cat rest sz
    simp [findSizeCategory]
  · intro sz hnone
    rw [findSizeCategory_eq_find?]
    rw [List.find?_eq_none.mpr (fun p hp => by simpa using hnone p hp)]
    rfl

/-- C7 witness: the boundary and default conjuncts applied to concrete
thresholds — a file of exactly 1000 bytes lands in `Tiny`, a file larger
than every threshold lands in `Others`. -/
theorem C7_witness :
    findSizeCategory [("Tiny", 1000), ("Medium", 5000)] 1000 = "Tiny" ∧
    findSizeCategory [("Tiny", 1000), ("Medium", 5000)] 9999 = "Others" :=
  ⟨(C7_size_classification [] "base" [("Tiny", 1000), ("Medium", 5000)]).2.2.2.1
      "Tiny" [("Medium", 5000)] 1000,
    (C7_size_classification [] "base" [("Tiny", 1000), ("Medium", 5000)]).2.2.2.2
      9999 (by decide)⟩

/-! ### Claim C8 -/

/-- C8: plan execution yields exactly one outcome per item (successes
plus error strings account for the whole plan); a failing move leaves the
filesystem untouched, is recorded as an error string tagged with the
file's name, and does not affect how the remaining items are processed;
every recorded success carries the item's file name, source, destination,
category and reason. -/
theorem C8_execution_partial_failure (fs : Fs) (plan : List Item) :
    ((executePlan fs plan).1.moved.length + (executePlan fs plan).1.errors.length =
      plan.length) ∧
    (∀ (it : Item) (rest : List Item) (msg : String),
      moveFile fs it.source it.target = .error msg →
      (executePlan fs (it :: rest)).1.moved = (executePlan fs rest).1.moved ∧
      (executePlan fs (it :: rest)).1.errors =
        mkMoveError it msg :: (executePlan fs rest).1.errors ∧
      (executePlan fs (it :: rest)).2 = (executePlan fs rest).2) ∧
    (∀ (it : Item) (rest : List Item) (fs2 : Fs),
      moveFile fs it.source it.target = .ok fs2 →
      (executePlan fs (it :: rest)).1.moved = mkMoved it :: (executePlan fs2 rest).1.moved ∧
      (executePlan fs (it :: rest)).1.errors = (executePlan fs2 rest).1.errors) ∧
    (∀ e ∈ (executePlan fs plan).1.errors, ∃ it ∈ plan, ∃ msg, e = mkMoveError it msg) ∧
    (∀ m ∈ (executePlan fs plan).1.moved, ∃ it ∈ plan, m = mkMoved it) := by
  refine ⟨executePlan_length plan fs, ?_, ?_,
    fun e he => executePlan_errors_mem plan fs e he,
    fun m hm => executePlan_moved_mem plan fs m hm⟩
  · intro it rest msg h
    exact executePlan_cons_error fs it rest msg h
  · intro it rest fs2 h
    obtain ⟨h1, h2, -⟩ := executePlan_cons_ok fs fs2 it rest h
    exact ⟨h1, h2⟩

/-- The filesystem for the three-move scenario: sources for the first and
third planned moves exist, the second planned source does not. -/
def execFs : Fs :=
  [⟨"base/a.txt", true, 1, 0, ""⟩, ⟨"base/b.txt", true, 1, 0, ""⟩]

/-- First planned move (succeeds). -/
def planOk1 : Item :=
  ⟨⟨"a.txt", 1, 0, ""⟩, "move", "base/a.txt", "base/Docs/a.txt", "Docs", "classified"⟩

/-- Second planned move (its source has vanished — fails). -/
def planBad : Item :=
  ⟨⟨"gone.txt", 1, 0, ""⟩, "move", "base/gone.txt", "base/Docs/gone.txt", "Docs", "classified"⟩

/-- Third planned move (succeeds). -/
def planOk2 : Item :=
  ⟨⟨"b.txt", 1, 0, ""⟩, "move", "base/b.txt", "base/Docs/b.txt", "Docs", "classified"⟩

/-- C8 witness: of three planned moves with a failing middle one, the
result reports exactly 2 successes and 1 error, and the theorem exhibits
the error string as tagged with the failing file's name. -/
theorem C8_witness :
    ((executePlan execFs [planOk1, planBad, planOk2]).1.moved.length = 2 ∧
      (executePlan execFs [planOk1, planBad, planOk2]).1.errors.length = 1) ∧
    (∃ it ∈ [planOk1, planBad, planOk2], ∃ msg,
      "Error moving gone.txt: No such file or directory" = mkMoveError it msg) :=
  ⟨⟨by decide, by decide⟩,
    (C8_execution_partial_failure execFs [planOk1, planBad, planOk2]).2.2.2.1
      "Error moving gone.txt: No such file or directory" (by decide)⟩

/-! ### Claim C9 -/

/-- C9: `undo_last_operation` on an empty history reports failure
(returns `false`) without raising and leaves the history unchanged; on a
non-empty history it reports success and removes exactly the most recent
record. -/
theorem C9_undo_behavior (history : List OperationRecord) :
    (history = [] → undoLastOperation history = (false, history)) ∧
    (history ≠ [] →
      (undoLastOperation history).1 = true ∧
      (undoLastOperation history).2 = history.dropLast ∧
      ∃ lastOp, history = (undoLastOperation history).2 ++ [lastOp]) := by
  constructor
  · intro h
    subst h
    rfl
  · intro h
    have hne : history.isEmpty = false := by
      cases history with
      | nil => exact absurd rfl h
      | cons a t => rfl
    have hundo : undoLastOperation history = (true, history.dropLast) := by
      unfold undoLastOperation
      rw [hne]
      rfl
    rw [hundo]
    exact ⟨rfl, rfl, history.getLast h, (List.dropLast_append_getLast h).symm⟩

/-- A sample operation record. -/
def sampleOp : OperationRecord :=
  ⟨"2024-01-01T00:00:00", "base", "type", "default", [], []⟩

/-- C9 witness: the theorem applied to the empty history (failure, no
change) and to a one-record history (success, record removed). -/
theorem C9_witness :
    undoLastOperation [] = (false, []) ∧
    (undoLastOperation [sampleOp]).1 = true ∧
    (undoLastOperation [sampleOp]).2 = [] :=
  ⟨(C9_undo_behavior []).1 rfl,
    ((C9_undo_behavior [sampleOp]).2 (by decide)).1,
    ((C9_undo_behavior [sampleOp]).2 (by decide)).2.1⟩

/-! ### Claim C10 -/

/-- C10: rule application and collision resolution both return a plan of
the same length with the items in the same positions, never touching any
item's scanned file or source path; collision resolution additionally
preserves each item's category, reason and target parent directory, and
passes an item through unchanged when its target basename has no earlier
occurrence in the plan. -/
theorem C10_plan_frame (plan : List Item) (rules : List CustomRule) (enabled : List String) :
    (applyCustomRules plan rules enabled).length = plan.length ∧
    (∀ (i : Nat) (it : Item), plan[i]? = some it →
      (applyCustomRules plan rules enabled)[i]? = some (itemRulesFold rules enabled it) ∧
      (itemRulesFold rules enabled it).entry = it.entry ∧
      (itemRulesFold rules enabled it).action = it.action ∧
      (itemRulesFold rules enabled it).source = it.source) ∧
    (handleDuplicates plan).length = plan.length ∧
    (∀ (i : Nat) (it : Item), plan[i]? = some it → ∃ it2,
      (handleDuplicates plan)[i]? = some it2 ∧
      it2.entry = it.entry ∧ it2.action = it.action ∧ it2.source = it.source ∧
      it2.category = it.category ∧ it2.reason = it.reason ∧
      pathParent it2.target = pathParent it.target) ∧
    (∀ (i : Nat) (it : Item), plan[i]? = some it →
      (∀ (j : Nat) (itj : Item), j < i → plan[j]? = some itj →
        pathBase itj.target ≠ pathBase it.target) →
      (handleDuplicates plan)[i]? = some it) := by
  have hgo : handleDuplicates plan = handleDupGo [] plan := rfl
  refine ⟨?_, ?_, ?_, ?_, ?_⟩
  · rw [applyCustomRules_eq_map]
    exact List.length_map _ _
  · intro i it hit
    rw [applyCustomRules_eq_map]
    refine ⟨?_, itemRulesFold_entry rules enabled it, itemRulesFold_action rules enabled it,
      itemRulesFold_source rules enabled it⟩
    rw [List.getElem?_map, hit]
    rfl
  · rw [hgo]
    exact handleDupGo_length plan []
  · intro i it hit
    rw [hgo]
    exact handleDupGo_frame plan [] i it hit
  · intro i it hit hpr
    rw [hgo]
    exact handleDupGo_first plan [] i it hit rfl hpr

/-- C10 witness: the frame theorem applied to a concrete one-item plan —
rule application keeps the length, and a collision-free item passes
through duplicate resolution unchanged. -/
theorem C10_witness :
    (applyCustomRules [ruleItem] [extRule] ["r1"]).length = 1 ∧
    (handleDuplicates [ruleItem])[0]? = some ruleItem :=
  ⟨(C10_plan_frame [ruleItem] [extRule] ["r1"]).1,
    (C10_plan_frame [ruleItem] [] []).2.2.2.2 0 ruleItem (by decide)
      (fun j itj hj _ => absurd hj (by omega))⟩
